import Mathlib

/-!
Verification development for the `simple-redis` RESP codec
(`src/resp/mod.rs`, `src/resp/encode.rs`).

Buffers and Rust strings are modelled as `List Nat` of byte values.
Machine integers are modelled as `Nat`/`Int` with explicit range bounds
(`usize`/`i64` are 64-bit).  Fallible Rust functions are modelled with
`Except`/`Option`; a Rust panic (slice index out of range) is modelled by a
dedicated `panicked` result constructor.  Error payload strings of
`RespError` are elided: claims only distinguish error constructors.

The file `src/resp/decode.rs` is declared by `mod decode;` but is not part
of the sources; every definition whose doc comment starts with
`Modelled from the spec:` reconstructs a missing `RespDecode` item from the
specification text (sections 4.2 and 4.3).
-/

namespace SimpleRedis

/-- Bytes of an ASCII string literal, for readable concrete values. -/
def strBytes (s : String) : List Nat := s.data.map Char.toNat

/-- The CRLF terminator `\r\n` (source constant `CRLF`). -/
def CRLF : List Nat := [13, 10]

/-- `CRLF_LEN` from the source. -/
def CRLF_LEN : Nat := 2

/-- Error kinds of `RespError` (payload strings elided). -/
inductive RespErr where
  | invalidFrame
  | invalidFrameType
  | invalidFrameLength
  | notComplete
  | parseIntError
  | parseFloatError
deriving DecidableEq, Repr

/-- Result of a length computation: `Ok(usize)`, `Err(RespError)`, or a
Rust panic / exceeded recursion depth. -/
inductive LenRes where
  | ok (n : Nat)
  | err (e : RespErr)
  | panicked
deriving DecidableEq, Repr

/-! ## Decimal digits -/

/-- Helper for `natDigits`: emits the decimal digits of `n` (ASCII codes),
with `fuel` bounding the recursion; `fuel > n` always suffices. -/
def natDigitsAux : Nat → Nat → List Nat
  | 0, _ => []
  | fuel + 1, n => if n < 10 then [48 + n] else natDigitsAux fuel (n / 10) ++ [48 + n % 10]

/-- Decimal digits of `n` as ASCII byte codes (what Rust `format!("{}", n)`
produces for an unsigned integer). -/
def natDigits (n : Nat) : List Nat := natDigitsAux (n + 1) n

/-- Decimal rendering of a signed integer, as Rust `format!("{}", i)`. -/
def intDecimal (i : Int) : List Nat :=
  if i < 0 then 45 :: natDigits i.natAbs else natDigits i.toNat

/-- Is `c` an ASCII decimal digit? -/
def isDigit (c : Nat) : Bool := 48 ≤ c && c ≤ 57

/-- Are all bytes decimal digits? -/
def isDigits (s : List Nat) : Bool := s.all isDigit

/-- Numeric value of a digit string (callers check `isDigits` separately). -/
def digitsVal (s : List Nat) : Nat := s.foldl (fun acc c => acc * 10 + (c - 48)) 0

/-- One or more decimal digits with value below `bound`: the common body of
the unsigned numeric parses. -/
def digitsBelow (t : List Nat) (bound : Nat) : Option Nat :=
  if t ≠ [] ∧ isDigits t = true ∧ digitsVal t < bound then some (digitsVal t) else none

/-- Rust `str::parse::<usize>()` on 64-bit targets: an optional leading `+`,
then one or more decimal digits, value at most `2^64 - 1`. -/
def parseUsize (s : List Nat) : Option Nat :=
  if s.head? = some 43 then digitsBelow s.tail (2 ^ 64) else digitsBelow s (2 ^ 64)

/-- Rust `str::parse::<i64>()`: optional sign, digits, 64-bit range. -/
def parseI64 (s : List Nat) : Option Int :=
  if s.head? = some 45 then
    match digitsBelow s.tail (2 ^ 63 + 1) with
    | some v => some (-(v : Int))
    | none => none
  else if s.head? = some 43 then
    match digitsBelow s.tail (2 ^ 63) with
    | some v => some (v : Int)
    | none => none
  else
    match digitsBelow s (2 ^ 63) with
    | some v => some (v : Int)
    | none => none

/-! ## `find_crlf` (src/resp/mod.rs lines 259-271)

The source iterates `i` over `0..buf.len() - 1`, counting `\r\n` pairs and
returning the index of the `nth` one.  `findCrlfAux` is that loop with the
iteration count made explicit as structural fuel (`buf.length` iterations
always suffice); `buf.getD i 0` models the in-bounds reads `buf[i]`,
`buf[i + 1]` (the loop guard keeps `i + 1 < buf.len()`). -/

def findCrlfAux (buf : List Nat) (nth : Nat) : Nat → Nat → Nat → Option Nat
  | 0, _, _ => none
  | fuel + 1, i, count =>
      if i < buf.length - 1 then
        if buf.getD i 0 = 13 ∧ buf.getD (i + 1) 0 = 10 then
          if count + 1 = nth then some i
          else findCrlfAux buf nth fuel (i + 1) (count + 1)
        else findCrlfAux buf nth fuel (i + 1) count
      else none

/-- `find_crlf` from the source. -/
def find_crlf (buf : List Nat) (nth : Nat) : Option Nat :=
  findCrlfAux buf nth buf.length 0 0

/-- Position of the first adjacent `\r\n` pair (structural specification of
`find_crlf _ 1`, used for reasoning). -/
def firstPair : List Nat → Option Nat
  | [] => none
  | [_] => none
  | a :: b :: t => if a = 13 ∧ b = 10 then some 0 else (firstPair (b :: t)).map (· + 1)

/-- Does the byte list contain an adjacent `\r\n` pair? -/
def hasPair : List Nat → Bool
  | [] => false
  | [_] => false
  | a :: b :: t => (a = 13 ∧ b = 10) || hasPair (b :: t)

/-! ## `extract_simple_frame_data` and `parse_length`
(src/resp/mod.rs lines 243-257 and 205-209) -/

/-- `extract_simple_frame_data`: length check, then prefix check
(`buf.starts_with(prefix)`), then CRLF search.  Returns the index of the
terminating `\r`. -/
def extract_simple_frame_data (buf : List Nat) (pfx : List Nat) : Except RespErr Nat :=
  if buf.length < 3 then .error .notComplete
  else if ¬ (pfx.isPrefixOf buf) then .error .invalidFrameType
  else match find_crlf buf 1 with
    | some e => .ok e
    | none => .error .notComplete

/-- `&buf[lo..hi]` as a slice of a byte list. -/
def sliceOf (buf : List Nat) (lo hi : Nat) : List Nat :=
  (buf.take hi).drop lo

/-- `parse_length`: extract the header line, slice between the prefix and
the CRLF, and `str::parse` it as `usize`; a parse failure surfaces as
`ParseIntError` (the `?` on `s.parse()` uses the `#[from]` conversion). -/
def parse_length (buf : List Nat) (pfx : List Nat) : Except RespErr (Nat × Nat) :=
  match extract_simple_frame_data buf pfx with
  | .error e => .error e
  | .ok e =>
      match parseUsize (sliceOf buf pfx.length e) with
      | some n => .ok (e, n)
      | none => .error .parseIntError

/-! ## The `f64` model

A finite `f64` is represented by its shortest round-tripping decimal
representation `(-1)^neg * m * 10^e` (the unique decimal Rust's `{}` /
`{:e}` formatting prints and `from_str` reads back).  This representation
order-embeds into `ℚ`, so IEEE comparisons between finite values (and the
literals `1e8`, `1e-8`) are exactly the rational comparisons of the
representations; `NaN` compares false everywhere. -/

inductive F64 where
  | nan
  | inf
  | neginf
  | fin (neg : Bool) (m : Nat) (e : Int)
deriving DecidableEq, Repr

/-- Rational value of a finite representation (the semantics the integer
comparisons below implement). -/
def finVal (neg : Bool) (m : Nat) (e : Int) : ℚ :=
  (if neg then -1 else 1) * (m : ℚ) * (10 : ℚ) ^ e

/-- Signed integer scaling of `(-1)^neg * m * 10^e` by `10^(-emin)`: both
comparands are brought to the common exponent `emin = min e₁ e₂`, turning
the rational comparison into an integer one. -/
def finScaled (neg : Bool) (m : Nat) (e emin : Int) : Int :=
  (if neg then -1 else 1) * (m : Int) * (10 : Int) ^ (e - emin).toNat

/-- Value comparison of two finite representations. -/
def finLtB (n₁ : Bool) (m₁ : Nat) (e₁ : Int) (n₂ : Bool) (m₂ : Nat) (e₂ : Int) : Bool :=
  decide (finScaled n₁ m₁ e₁ (min e₁ e₂) < finScaled n₂ m₂ e₂ (min e₁ e₂))

/-- Value equality of two finite representations. -/
def finEqB (n₁ : Bool) (m₁ : Nat) (e₁ : Int) (n₂ : Bool) (m₂ : Nat) (e₂ : Int) : Bool :=
  decide (finScaled n₁ m₁ e₁ (min e₁ e₂) = finScaled n₂ m₂ e₂ (min e₁ e₂))

/-- IEEE `<` on `f64` values. -/
def f64Lt : F64 → F64 → Bool
  | .nan, _ => false
  | _, .nan => false
  | .neginf, .neginf => false
  | .neginf, _ => true
  | _, .neginf => false
  | .inf, _ => false
  | _, .inf => true
  | .fin n₁ m₁ e₁, .fin n₂ m₂ e₂ => finLtB n₁ m₁ e₁ n₂ m₂ e₂

/-- IEEE `>` on `f64` values. -/
def f64Gt (a b : F64) : Bool := f64Lt b a

/-- IEEE `==` on `f64` values (`NaN` is not equal to anything, `-0.0 == 0.0`). -/
def f64Eq : F64 → F64 → Bool
  | .nan, _ => false
  | _, .nan => false
  | .inf, .inf => true
  | .inf, _ => false
  | _, .inf => false
  | .neginf, .neginf => true
  | .neginf, _ => false
  | _, .neginf => false
  | .fin n₁ m₁ e₁, .fin n₂ m₂ e₂ => finEqB n₁ m₁ e₁ n₂ m₂ e₂

/-- `f64::abs` (clears the sign bit; `abs(NaN) = NaN`). -/
def f64Abs : F64 → F64
  | .nan => .nan
  | .inf => .inf
  | .neginf => .inf
  | .fin _ m e => .fin false m e

def isNanF : F64 → Bool
  | .nan => true
  | _ => false

def isInfF : F64 → Bool
  | .inf => true
  | .neginf => true
  | _ => false

/-- Is the representation the canonical (shortest) decimal of a real `f64`?
Real finite `f64` values correspond exactly to canonical representations. -/
def isCanonF : F64 → Bool
  | .fin _ m e => if m = 0 then decide (e = 0) else decide (m % 10 ≠ 0)
  | _ => true

/-- The `f64` literal `0.0`. -/
def zeroF64 : F64 := .fin false 0 0

/-- The `f64` literal `1e+8` (exactly representable; shortest form `1e8`). -/
def oneE8 : F64 := .fin false 1 8

/-- The `f64` literal `1e-8` (its shortest decimal form is `1e-8`). -/
def oneEm8 : F64 := .fin false 1 (-8)

/-! ### Rust float formatting -/

/-- Positional digit string of `m * 10^e`, as Rust `Display` (`{}`) prints
the shortest decimal of a finite float: no exponent marker ever. -/
def positionalDigits (m : Nat) (e : Int) : List Nat :=
  let ds := natDigits m
  if 0 ≤ e then ds ++ List.replicate e.toNat 48
  else
    let k := (-e).toNat
    if k < ds.length then ds.take (ds.length - k) ++ [46] ++ ds.drop (ds.length - k)
    else [48, 46] ++ List.replicate (k - ds.length) 48 ++ ds

/-- Scientific digit string of `m * 10^e`, as Rust `LowerExp` (`{:e}`):
`d[.ddd]e<exp>`, lowercase marker, exponent without a leading plus. -/
def sciDigits (m : Nat) (e : Int) : List Nat :=
  let ds := natDigits m
  ds.take 1 ++ (if ds.length ≤ 1 then [] else 46 :: ds.drop 1) ++ [101]
    ++ intDecimal (e + ds.length - 1)

/-- Rust `format!("{}", d)` for an `f64` (no sign flag: only a negative
value, or `-0.0`, prints a leading minus; `NaN`/`inf` print as such). -/
def displayBytes : F64 → List Nat
  | .nan => strBytes "NaN"
  | .inf => strBytes "inf"
  | .neginf => strBytes "-inf"
  | .fin neg m e => (if neg then [45] else []) ++ positionalDigits m e

/-- Rust `format!("{:+e}", d)`: explicit sign for every value except `NaN`
(Rust's float formatting never signs `NaN`). -/
def lowerExpPlusBytes : F64 → List Nat
  | .nan => strBytes "NaN"
  | .inf => strBytes "+inf"
  | .neginf => strBytes "-inf"
  | .fin neg m e => (if neg then [45] else [43]) ++ sciDigits m e

/-- The payload between `,` and CRLF of the `f64` encoder: scientific
branch (`format!("{:+e}", self)`) when `self.abs() > 1e+8 || self.abs() <
1e-8`, else the manual sign (`+` unless `self < 0.0`) and `format!("{}",
self)`. -/
def f64Payload (d : F64) : List Nat :=
  if f64Gt (f64Abs d) oneE8 || f64Lt (f64Abs d) oneEm8 then
    lowerExpPlusBytes d
  else
    (if f64Lt d zeroF64 then [] else [43]) ++ displayBytes d

/-- `impl RespEncode for f64` (src/resp/encode.rs lines 72-84):
`,<payload>\r\n`. -/
def encodeF64 (d : F64) : List Nat :=
  44 :: f64Payload d ++ CRLF

/-! ### Rust float parsing (`f64::from_str`), needed by the Decoder -/

/-- Lowercase an ASCII byte. -/
def toLowerByte (c : Nat) : Nat := if 65 ≤ c ∧ c ≤ 90 then c + 32 else c

/-- Split a byte list at the first byte satisfying `p`; returns the part
before and, when found, the part after. -/
def splitAtFirst (p : Nat → Bool) : List Nat → List Nat × Option (List Nat)
  | [] => ([], none)
  | c :: t =>
      if p c then ([], some t)
      else
        let r := splitAtFirst p t
        (c :: r.1, r.2)

/-- Strip trailing decimal zeros of `m` into the exponent (canonicalizes a
parsed mantissa; `fuel ≥ m` suffices). -/
def canonAux : Nat → Nat → Int → Nat × Int
  | 0, m, e => (m, e)
  | fuel + 1, m, e =>
      if m % 10 = 0 ∧ m ≠ 0 then canonAux fuel (m / 10) (e + 1) else (m, e)

/-- Canonical finite value from a parsed sign/mantissa/exponent. -/
def mkF64 (neg : Bool) (m : Nat) (e : Int) : F64 :=
  if m = 0 then .fin neg 0 0
  else .fin neg (canonAux m m e).1 (canonAux m m e).2

/-- One or more decimal digits (no range bound). -/
def digitsOnly (t : List Nat) : Option Nat :=
  if t ≠ [] ∧ isDigits t = true then some (digitsVal t) else none

/-- Signed decimal integer text (the exponent of float text): optional
sign, then one or more digits. -/
def parseSignedInt (s : List Nat) : Option Int :=
  if s.head? = some 45 then
    match digitsOnly s.tail with
    | some v => some (-(v : Int))
    | none => none
  else if s.head? = some 43 then
    match digitsOnly s.tail with
    | some v => some (v : Int)
    | none => none
  else
    match digitsOnly s with
    | some v => some (v : Int)
    | none => none

/-- The numeric value of the optional exponent part: absent means `0`. -/
def expVal : Option (List Nat) → Option Int
  | none => some (0 : Int)
  | some es => parseSignedInt es

/-- Assembles the parsed float from integer part `ip`, fraction part `fp`
and exponent: value `±(ip.fp) * 10^k`, canonicalized. -/
def parseMantissa (neg : Bool) (ip fp : List Nat) (expv : Option Int) : Option F64 :=
  if ip ++ fp = [] ∨ isDigits (ip ++ fp) = false then none
  else
    match expv with
    | none => none
    | some k => some (mkF64 neg (digitsVal (ip ++ fp)) (k - fp.length))

/-- The sign-stripped body of the float parse: case-insensitive
`inf`/`infinity`/`nan`, or a decimal mantissa with optional fraction and
optional exponent. -/
def parseFloatBody (neg : Bool) (r : List Nat) : Option F64 :=
  if r.map toLowerByte = strBytes "nan" then some .nan
  else if r.map toLowerByte = strBytes "inf" ∨ r.map toLowerByte = strBytes "infinity" then
    some (if neg then .neginf else .inf)
  else
    parseMantissa neg
      (splitAtFirst (fun c => c = 46) (splitAtFirst (fun c => c = 101 || c = 69) r).1).1
      ((splitAtFirst (fun c => c = 46) (splitAtFirst (fun c => c = 101 || c = 69) r).1).2.getD [])
      (expVal (splitAtFirst (fun c => c = 101 || c = 69) r).2)

/-- Modelled from the spec: the Decoder's float-text parse (spec section 4.3,
"float text, including scientific notation with explicit sign and
exponent"), i.e. `f64::from_str` of the missing `decode.rs`: optional sign,
then case-insensitive `inf`/`infinity`/`nan` or a decimal mantissa with
optional fraction and optional exponent.  The model keeps the exact decimal
value (no binary rounding), which agrees with Rust on every string the
encoder emits. -/
def parseFloat (s : List Nat) : Option F64 :=
  if s.head? = some 45 then parseFloatBody true s.tail
  else if s.head? = some 43 then parseFloatBody false s.tail
  else parseFloatBody false s

/-! ## The Value Model (`RespFrame`, src/resp/mod.rs lines 43-77)

`RespMap`'s `BTreeMap<String, RespFrame>` is modelled as a key-sorted
association list (`PairList`); `RespArray`/`RespSet` are `FrameList`.
The list spines are separate mutual inductives so that structural mutual
recursion is available. -/

mutual

inductive RespFrame where
  | simpleString (s : List Nat)
  | simpleError (s : List Nat)
  | integer (i : Int)
  | bulkString (b : List Nat)
  | nullBulkString
  | array (xs : FrameList)
  | null
  | nullArray
  | boolean (b : Bool)
  | double (d : F64)
  | map (m : PairList)
  | set (xs : FrameList)

inductive FrameList where
  | nil
  | cons (f : RespFrame) (t : FrameList)

inductive PairList where
  | nil
  | cons (k : List Nat) (v : RespFrame) (t : PairList)

end

/-- Number of elements of a `RespArray`/`RespSet` payload. -/
def lengthL : FrameList → Nat
  | .nil => 0
  | .cons _ t => lengthL t + 1

/-- Number of entries of a `RespMap` payload. -/
def lengthP : PairList → Nat
  | .nil => 0
  | .cons _ _ t => lengthP t + 1

def appendP : PairList → PairList → PairList
  | .nil, m => m
  | .cons k v t, m => .cons k v (appendP t m)

/-- Rust `String` ordering (byte-wise lexicographic on UTF-8 bytes), the
order of `BTreeMap<String, _>` keys. -/
def keyLt : List Nat → List Nat → Bool
  | [], [] => false
  | [], _ :: _ => true
  | _ :: _, [] => false
  | a :: s, b :: t => if a < b then true else if b < a then false else keyLt s t

/-- Is `k` strictly below every key of the map? -/
def allKeyLt (k : List Nat) : PairList → Bool
  | .nil => true
  | .cons k' _ t => keyLt k k' && allKeyLt k t

/-- The `BTreeMap` representation invariant: keys strictly ascending
(stated pairwise). -/
def sortedP : PairList → Bool
  | .nil => true
  | .cons k _ t => allKeyLt k t && sortedP t

/-- `BTreeMap::insert`: overwrites the value of an existing key, otherwise
inserts at the ordered position. -/
def insertPair (k : List Nat) (v : RespFrame) : PairList → PairList
  | .nil => .cons k v .nil
  | .cons k' v' t =>
      if keyLt k k' then .cons k v (.cons k' v' t)
      else if k = k' then .cons k v t
      else .cons k' v' (insertPair k v t)

/-! ## The Encoder (src/resp/encode.rs) -/

mutual

/-- `RespEncode::encode`, arm by arm from src/resp/encode.rs: the
enum-dispatched encoding of one frame. -/
def encodeFrame : RespFrame → List Nat
  | .simpleString s => 43 :: s ++ CRLF
  | .simpleError s => 45 :: s ++ CRLF
  | .integer i => 58 :: (if i < 0 then [] else [43]) ++ intDecimal i ++ CRLF
  | .bulkString b => 36 :: natDigits b.length ++ CRLF ++ b ++ CRLF
  | .nullBulkString => strBytes "$-1\r\n"
  | .array xs => 42 :: natDigits (lengthL xs) ++ CRLF ++ encodeFrameList xs
  | .null => strBytes "_\r\n"
  | .nullArray => strBytes "*-1\r\n"
  | .boolean b => 35 :: (if b then [116] else [102]) ++ CRLF
  | .double d => encodeF64 d
  | .map m => 37 :: natDigits (lengthP m) ++ CRLF ++ encodePairList m
  | .set xs => 126 :: natDigits (lengthL xs) ++ CRLF ++ encodeFrameList xs

/-- The `for item in self.0` loop of the Array/Set encoders. -/
def encodeFrameList : FrameList → List Nat
  | .nil => []
  | .cons f t => encodeFrame f ++ encodeFrameList t

/-- The `for (key, value) in self.0` loop of the Map encoder: each key is
encoded as a SimpleString, then the value. -/
def encodePairList : PairList → List Nat
  | .nil => []
  | .cons k v t => (43 :: k ++ CRLF) ++ encodeFrame v ++ encodePairList t

end

/-! ## Rust `PartialEq` on `RespFrame` (`#[derive(PartialEq)]`):
structural, except that `f64` equality is IEEE (`NaN != NaN`). -/

mutual

def frameEqF : RespFrame → RespFrame → Bool
  | .simpleString a, .simpleString b => decide (a = b)
  | .simpleError a, .simpleError b => decide (a = b)
  | .integer a, .integer b => decide (a = b)
  | .bulkString a, .bulkString b => decide (a = b)
  | .nullBulkString, .nullBulkString => true
  | .array a, .array b => frameEqL a b
  | .null, .null => true
  | .nullArray, .nullArray => true
  | .boolean a, .boolean b => decide (a = b)
  | .double a, .double b => f64Eq a b
  | .map a, .map b => frameEqP a b
  | .set a, .set b => frameEqL a b
  | _, _ => false

def frameEqL : FrameList → FrameList → Bool
  | .nil, .nil => true
  | .cons f t, .cons f' t' => frameEqF f f' && frameEqL t t'
  | _, _ => false

def frameEqP : PairList → PairList → Bool
  | .nil, .nil => true
  | .cons k v t, .cons k' v' t' => decide (k = k') && frameEqF v v' && frameEqP t t'
  | _, _ => false

end

/-! ## Well-formed frames

The frames the Rust value model can actually hold: texts/keys without an
embedded CRLF (the Value Model's "text (no CR/LF)"), machine-range lengths
and integers, `BTreeMap` key-sortedness, and canonical `f64`
representations.  `wfF` does NOT exclude `NaN` or infinities. -/

mutual

def wfF : RespFrame → Bool
  | .simpleString s => !hasPair s
  | .simpleError s => !hasPair s
  | .integer i => decide (-(2 ^ 63) ≤ i ∧ i < 2 ^ 63)
  | .bulkString b => decide (b.length < 2 ^ 64)
  | .nullBulkString => true
  | .array xs => decide (lengthL xs < 2 ^ 64) && wfL xs
  | .null => true
  | .nullArray => true
  | .boolean _ => true
  | .double d => isCanonF d
  | .map m => decide (lengthP m < 2 ^ 64) && sortedP m && wfP m
  | .set xs => decide (lengthL xs < 2 ^ 64) && wfL xs

def wfL : FrameList → Bool
  | .nil => true
  | .cons f t => wfF f && wfL t

def wfP : PairList → Bool
  | .nil => true
  | .cons k v t => !hasPair k && wfF v && wfP t

end

/-! `hasNanF`: does the frame contain a `NaN` double anywhere?  (`NaN`
breaks `PartialEq` reflexivity and hence the round-trip equality.) -/

mutual

def hasNanF : RespFrame → Bool
  | .double d => isNanF d
  | .array xs => hasNanL xs
  | .set xs => hasNanL xs
  | .map m => hasNanP m
  | _ => false

def hasNanL : FrameList → Bool
  | .nil => false
  | .cons f t => hasNanF f || hasNanL t

def hasNanP : PairList → Bool
  | .nil => false
  | .cons _ v t => hasNanF v || hasNanP t

end

/-! `depthF`: nesting depth of aggregate frames (bounds the recursion the
decoder needs). -/

mutual

def depthF : RespFrame → Nat
  | .array xs => depthL xs + 1
  | .map m => depthP m + 1
  | .set xs => depthL xs + 1
  | _ => 0

def depthL : FrameList → Nat
  | .nil => 0
  | .cons f t => max (depthF f) (depthL t)

def depthP : PairList → Nat
  | .nil => 0
  | .cons _ v t => max (depthF v) (depthP t)

end

/-! ## The Frame-Length Oracle

`calc_total_length` (src/resp/mod.rs lines 214-241) walks the nested
frames of an aggregate with the loop state `(data, total)`.  The recursive
call `RespFrame::expect_length` lives in the missing `decode.rs`, so the
loops are parameterized by that callback `g`; `expectLength` below ties the
knot with explicit fuel (Rust's recursion is unbounded; exhausted fuel is
reported as `panicked`, like the slice-range panic of `&data[len..]` when
a nested length exceeds the remaining bytes). -/

/-- State-carrying result of the measuring loops: `ok` holds the remaining
slice and the running total. -/
inductive StRes where
  | ok (data : List Nat) (total : Nat)
  | err (e : RespErr)
  | panicked
deriving DecidableEq, Repr

/-- The `"*" | "~"` loop of `calc_total_length`: `len` times, measure one
nested frame, advance `data`, add to `total`.  A nested error propagates at
once through `?`; `&data[len..]` with `len > data.len()` is a Rust panic. -/
def measureN (g : List Nat → LenRes) : Nat → List Nat → Nat → StRes
  | 0, data, total => .ok data total
  | n + 1, data, total =>
      match g data with
      | .ok l => if data.length < l then .panicked else measureN g n (data.drop l) (total + l)
      | .err e => .err e
      | .panicked => .panicked

/-- Modelled from the spec: `SimpleString::expect_length` of the missing
`decode.rs` (spec section 4.2, fixed-terminator frames): CRLF offset plus
the terminator. -/
def simpleStringExpectLength (buf : List Nat) : LenRes :=
  match extract_simple_frame_data buf [43] with
  | .ok e => .ok (e + CRLF_LEN)
  | .error e => .err e

/-- The `"%"` loop of `calc_total_length`: per entry, a SimpleString key
frame then an arbitrary value frame, in that order. -/
def measureMapN (g : List Nat → LenRes) : Nat → List Nat → Nat → StRes
  | 0, data, total => .ok data total
  | n + 1, data, total =>
      match simpleStringExpectLength data with
      | .ok l =>
          if data.length < l then .panicked
          else
            match g (data.drop l) with
            | .ok l₂ =>
                if (data.drop l).length < l₂ then .panicked
                else measureMapN g n ((data.drop l).drop l₂) (total + l + l₂)
            | .err e => .err e
            | .panicked => .panicked
      | .err e => .err e
      | .panicked => .panicked

/-- `calc_total_length` (src/resp/mod.rs lines 214-241).  `g` stands for
the `RespFrame::expect_length` the source calls.  `&buf[total..]` is taken
before the prefix dispatch, so an over-short buffer panics for every
prefix. -/
def calc_total_length (g : List Nat → LenRes) (buf : List Nat) (e len : Nat)
    (pfx : List Nat) : LenRes :=
  let total := e + CRLF_LEN
  if buf.length < total then .panicked
  else
    let data := buf.drop total
    if pfx = [42] ∨ pfx = [126] then
      match measureN g len data total with
      | .ok _ t => .ok t
      | .err er => .err er
      | .panicked => .panicked
    else if pfx = [37] then
      match measureMapN g len data total with
      | .ok _ t => .ok t
      | .err er => .err er
      | .panicked => .panicked
    else .ok (len + CRLF_LEN)

/-- Modelled from the spec: `RespFrame::expect_length` of the missing
`decode.rs` — the prefix-byte dispatch of the Frame-Length Oracle (spec
section 4.2): fixed-terminator frames (`+ - : # ,`) return the CRLF offset
plus 2; `_` has fixed length 3; `$` parses the length header (the `-1`
sentinel is NullBulkString) and adds the declared payload length plus the
trailing CRLF without checking those bytes are present; `* ~ %` parse the
count header (`*-1` is NullArray) and hand over to `calc_total_length`;
any other leading byte is `InvalidFrameType`, and an empty buffer is
`NotComplete`.  Header parsing is `parse_length` unfolded (extract, slice,
`str::parse::<usize>`), with the `-1` sentinel checked on the raw slice. -/
def expectLength : Nat → List Nat → LenRes
  | 0, _ => .panicked
  | fuel + 1, buf =>
      match buf.head? with
      | none => .err .notComplete
      | some b =>
          if b = 43 ∨ b = 45 ∨ b = 58 ∨ b = 35 ∨ b = 44 then
            match extract_simple_frame_data buf [b] with
            | .ok e => .ok (e + CRLF_LEN)
            | .error er => .err er
          else if b = 95 then
            if buf.length < 3 then .err .notComplete else .ok 3
          else if b = 36 then
            match extract_simple_frame_data buf [36] with
            | .error er => .err er
            | .ok e =>
                if sliceOf buf 1 e = [45, 49] then .ok (e + CRLF_LEN)
                else
                  match parseUsize (sliceOf buf 1 e) with
                  | some n => .ok (e + CRLF_LEN + n + CRLF_LEN)
                  | none => .err .parseIntError
          else if b = 42 ∨ b = 126 ∨ b = 37 then
            match extract_simple_frame_data buf [b] with
            | .error er => .err er
            | .ok e =>
                if b = 42 ∧ sliceOf buf 1 e = [45, 49] then .ok (e + CRLF_LEN)
                else
                  match parseUsize (sliceOf buf 1 e) with
                  | some n => calc_total_length (expectLength fuel) buf e n [b]
                  | none => .err .parseIntError
          else .err .invalidFrameType

/-! ## The Decoder

`decode.rs` is missing from the sources; the decoder below is modelled
from spec sections 4.3 and 6 (per-variant parse rules, the structural
inverse of the encoder; on a truncated buffer it signals `NotComplete`
rather than reading out of bounds).  `DecRes.ok f rest` models a
successful `decode(&mut buf)` that produced `f` and advanced the buffer to
`rest` — the consumed span is exactly the dropped prefix. -/

inductive DecRes where
  | ok (f : RespFrame) (rest : List Nat)
  | err (e : RespErr)
  | panicked

inductive DecResL where
  | ok (xs : FrameList) (rest : List Nat)
  | err (e : RespErr)
  | panicked

inductive DecResP where
  | ok (m : PairList) (rest : List Nat)
  | err (e : RespErr)
  | panicked

/-- Modelled from the spec: `SimpleString::decode` as used for Map keys
(spec section 4.3: "the key frame must be a SimpleString (decode failure
or type mismatch surfaces as InvalidFrameType)"). -/
def decodeSimpleStringKey (buf : List Nat) : Except RespErr (List Nat × List Nat) :=
  match extract_simple_frame_data buf [43] with
  | .error er => .error er
  | .ok e => .ok (sliceOf buf 1 e, buf.drop (e + CRLF_LEN))

/-- Modelled from the spec: the Array/Set decode loop — "recursively
decode exactly `count` nested frames in sequence order, collecting them
into the ordered container"; `d` is the nested `RespFrame::decode`. -/
def decodeN (d : List Nat → DecRes) : Nat → List Nat → DecResL
  | 0, data => .ok .nil data
  | n + 1, data =>
      match d data with
      | .ok f rest =>
          match decodeN d n rest with
          | .ok xs r => .ok (.cons f xs) r
          | .err er => .err er
          | .panicked => .panicked
      | .err er => .err er
      | .panicked => .panicked

/-- Modelled from the spec: the Map decode loop — "recursively decode
`count` (key-frame, value-frame) pairs ... insert into the key-ordered
structure (last write for a duplicate key wins)". -/
def decodeMapN (d : List Nat → DecRes) : Nat → List Nat → PairList → DecResP
  | 0, data, acc => .ok acc data
  | n + 1, data, acc =>
      match decodeSimpleStringKey data with
      | .error er => .err er
      | .ok (k, rest₁) =>
          match d rest₁ with
          | .ok v rest₂ => decodeMapN d n rest₂ (insertPair k v acc)
          | .err er => .err er
          | .panicked => .panicked

/-- Modelled from the spec: `RespFrame::decode` of the missing `decode.rs`
(spec sections 4.3 and 6): prefix dispatch; fixed-terminator payload
slicing; decimal integer with optional sign (`ParseIntError` on failure);
float text (`ParseFloatError` on failure); `t`/`f` booleans; BulkString
with `-1` sentinel, raw payload bytes and an unvalidated trailing CRLF;
Array/Set/Map recursion; `NotComplete` on truncation.  Exhausted fuel
(`panicked`) models Rust's unbounded recursion depth. -/
def decodeFrame : Nat → List Nat → DecRes
  | 0, _ => .panicked
  | fuel + 1, buf =>
      match buf.head? with
      | none => .err .notComplete
      | some b =>
          if b = 43 then
            match extract_simple_frame_data buf [43] with
            | .error er => .err er
            | .ok e => .ok (.simpleString (sliceOf buf 1 e)) (buf.drop (e + CRLF_LEN))
          else if b = 45 then
            match extract_simple_frame_data buf [45] with
            | .error er => .err er
            | .ok e => .ok (.simpleError (sliceOf buf 1 e)) (buf.drop (e + CRLF_LEN))
          else if b = 58 then
            match extract_simple_frame_data buf [58] with
            | .error er => .err er
            | .ok e =>
                match parseI64 (sliceOf buf 1 e) with
                | some i => .ok (.integer i) (buf.drop (e + CRLF_LEN))
                | none => .err .parseIntError
          else if b = 35 then
            match extract_simple_frame_data buf [35] with
            | .error er => .err er
            | .ok e =>
                if sliceOf buf 1 e = [116] then .ok (.boolean true) (buf.drop (e + CRLF_LEN))
                else if sliceOf buf 1 e = [102] then .ok (.boolean false) (buf.drop (e + CRLF_LEN))
                else .err .invalidFrame
          else if b = 44 then
            match extract_simple_frame_data buf [44] with
            | .error er => .err er
            | .ok e =>
                match parseFloat (sliceOf buf 1 e) with
                | some d => .ok (.double d) (buf.drop (e + CRLF_LEN))
                | none => .err .parseFloatError
          else if b = 95 then
            if buf.length < 3 then .err .notComplete
            else if buf.take 3 = [95, 13, 10] then .ok .null (buf.drop 3)
            else .err .invalidFrameType
          else if b = 36 then
            match extract_simple_frame_data buf [36] with
            | .error er => .err er
            | .ok e =>
                if sliceOf buf 1 e = [45, 49] then .ok .nullBulkString (buf.drop (e + CRLF_LEN))
                else
                  match parseUsize (sliceOf buf 1 e) with
                  | none => .err .parseIntError
                  | some n =>
                      if buf.length < e + CRLF_LEN + n + CRLF_LEN then .err .notComplete
                      else
                        .ok (.bulkString ((buf.drop (e + CRLF_LEN)).take n))
                          (buf.drop (e + CRLF_LEN + n + CRLF_LEN))
          else if b = 42 then
            match extract_simple_frame_data buf [42] with
            | .error er => .err er
            | .ok e =>
                if sliceOf buf 1 e = [45, 49] then .ok .nullArray (buf.drop (e + CRLF_LEN))
                else
                  match parseUsize (sliceOf buf 1 e) with
                  | none => .err .parseIntError
                  | some n =>
                      match decodeN (decodeFrame fuel) n (buf.drop (e + CRLF_LEN)) with
                      | .ok xs r => .ok (.array xs) r
                      | .err er => .err er
                      | .panicked => .panicked
          else if b = 126 then
            match extract_simple_frame_data buf [126] with
            | .error er => .err er
            | .ok e =>
                match parseUsize (sliceOf buf 1 e) with
                | none => .err .parseIntError
                | some n =>
                    match decodeN (decodeFrame fuel) n (buf.drop (e + CRLF_LEN)) with
                    | .ok xs r => .ok (.set xs) r
                    | .err er => .err er
                    | .panicked => .panicked
          else if b = 37 then
            match extract_simple_frame_data buf [37] with
            | .error er => .err er
            | .ok e =>
                match parseUsize (sliceOf buf 1 e) with
                | none => .err .parseIntError
                | some n =>
                    match decodeMapN (decodeFrame fuel) n (buf.drop (e + CRLF_LEN)) .nil with
                    | .ok m r => .ok (.map m) r
                    | .err er => .err er
                    | .panicked => .panicked
          else .err .invalidFrameType

/-! ## Lemmas: decimal digits -/

theorem digitsVal_foldl (s : List Nat) (a : Nat) :
    s.foldl (fun acc c => acc * 10 + (c - 48)) a = a * 10 ^ s.length + digitsVal s := by
  induction s generalizing a with
  | nil => simp [digitsVal]
  | cons c t ih =>
      simp only [List.foldl_cons, digitsVal, List.length_cons]
      rw [ih (a * 10 + (c - 48)), ih (0 * 10 + (c - 48))]
      ring

theorem digitsVal_append (s t : List Nat) :
    digitsVal (s ++ t) = digitsVal s * 10 ^ t.length + digitsVal t := by
  unfold digitsVal
  rw [List.foldl_append]
  exact digitsVal_foldl t _

theorem natDigitsAux_spec : ∀ fuel n, n < fuel →
    isDigits (natDigitsAux fuel n) = true ∧ natDigitsAux fuel n ≠ [] ∧
      digitsVal (natDigitsAux fuel n) = n := by
  intro fuel
  induction fuel with
  | zero => omega
  | succ f ih =>
      intro n hn
      by_cases h : n < 10
      · simp only [natDigitsAux, if_pos h]
        refine ⟨by simp [isDigits, isDigit]; omega, by simp, ?_⟩
        simp only [digitsVal, List.foldl_cons, List.foldl_nil]
        omega
      · have hd : n / 10 < f := by omega
        obtain ⟨h1, h2, h3⟩ := ih (n / 10) hd
        simp only [natDigitsAux, if_neg h]
        refine ⟨?_, by simp, ?_⟩
        · simp only [isDigits, List.all_append] at h1 ⊢
          simp [h1, isDigit]
          omega
        · rw [digitsVal_append, h3]
          simp only [digitsVal, List.foldl_cons, List.foldl_nil, List.length_cons,
            List.length_nil, pow_one, pow_zero]
          omega

theorem natDigits_isDigits (n : Nat) : isDigits (natDigits n) = true :=
  (natDigitsAux_spec (n + 1) n (by omega)).1

theorem natDigits_ne_nil (n : Nat) : natDigits n ≠ [] :=
  (natDigitsAux_spec (n + 1) n (by omega)).2.1

theorem digitsVal_natDigits (n : Nat) : digitsVal (natDigits n) = n :=
  (natDigitsAux_spec (n + 1) n (by omega)).2.2

theorem isDigit_of_isDigits {s : List Nat} (h : isDigits s = true) {c : Nat} (hc : c ∈ s) :
    isDigit c = true := by
  simp only [isDigits, List.all_eq_true] at h
  exact h c hc

theorem digits_bounds {s : List Nat} (h : isDigits s = true) {c : Nat} (hc : c ∈ s) :
    48 ≤ c ∧ c ≤ 57 := by
  have := isDigit_of_isDigits h hc
  simp [isDigit] at this
  omega

theorem natDigits_mem_bounds {n c : Nat} (hc : c ∈ natDigits n) : 48 ≤ c ∧ c ≤ 57 :=
  digits_bounds (natDigits_isDigits n) hc

theorem natDigits_head_digit (n : Nat) :
    ∃ c t, natDigits n = c :: t ∧ 48 ≤ c ∧ c ≤ 57 := by
  cases hds : natDigits n with
  | nil => exact absurd hds (natDigits_ne_nil n)
  | cons c t =>
      have hc : c ∈ natDigits n := by rw [hds]; exact List.mem_cons_self c t
      exact ⟨c, t, rfl, natDigits_mem_bounds hc⟩

theorem natDigits_ne_neg_one (n : Nat) : natDigits n ≠ [45, 49] := by
  intro h
  have : (45 : Nat) ∈ natDigits n := by rw [h]; simp
  have := natDigits_mem_bounds this
  omega

theorem digitsBelow_natDigits {n bound : Nat} (h : n < bound) :
    digitsBelow (natDigits n) bound = some n := by
  unfold digitsBelow
  rw [if_pos ⟨natDigits_ne_nil n, natDigits_isDigits n,
        by rw [digitsVal_natDigits]; exact h⟩,
    digitsVal_natDigits]

theorem digitsOnly_natDigits (n : Nat) : digitsOnly (natDigits n) = some n := by
  unfold digitsOnly
  rw [if_pos ⟨natDigits_ne_nil n, natDigits_isDigits n⟩, digitsVal_natDigits]

theorem natDigits_head?_digit (n : Nat) :
    ∃ c, (natDigits n).head? = some c ∧ 48 ≤ c ∧ c ≤ 57 := by
  obtain ⟨c, t, hds, hc1, hc2⟩ := natDigits_head_digit n
  exact ⟨c, by rw [hds]; rfl, hc1, hc2⟩

theorem parseUsize_natDigits {n : Nat} (h : n < 2 ^ 64) :
    parseUsize (natDigits n) = some n := by
  obtain ⟨c, hc, h1, h2⟩ := natDigits_head?_digit n
  unfold parseUsize
  rw [if_neg (by rw [hc]; intro heq; injection heq; omega), digitsBelow_natDigits h]

theorem parseI64_encoded {i : Int} (h1 : -(2 ^ 63) ≤ i) (h2 : i < 2 ^ 63) :
    parseI64 ((if i < 0 then [] else [43]) ++ intDecimal i) = some i := by
  by_cases hneg : i < 0
  · simp only [if_pos hneg, List.nil_append, intDecimal, if_pos hneg]
    unfold parseI64
    simp only [List.head?_cons, List.tail_cons]
    rw [if_pos trivial, digitsBelow_natDigits (by omega : i.natAbs < 2 ^ 63 + 1)]
    show some (-(i.natAbs : Int)) = some i
    congr 1
    omega
  · simp only [if_neg hneg, intDecimal, if_neg hneg, List.singleton_append]
    unfold parseI64
    simp only [List.head?_cons, List.tail_cons]
    rw [if_pos trivial, digitsBelow_natDigits (by omega : i.toNat < 2 ^ 63)]
    show some ((i.toNat : Int)) = some i
    congr 1
    omega

/-! ## Lemmas: CRLF search -/

theorem firstPair_short {l : List Nat} (h : l.length ≤ 1) : firstPair l = none := by
  match l with
  | [] => rfl
  | [_] => rfl
  | a :: b :: t => simp at h

theorem findCrlfAux_sound (buf : List Nat) (nth : Nat) :
    ∀ fuel i count j, findCrlfAux buf nth fuel i count = some j →
      j + 1 < buf.length ∧ buf.getD j 0 = 13 ∧ buf.getD (j + 1) 0 = 10 := by
  intro fuel
  induction fuel with
  | zero => intro i c j h; exact absurd h (by simp [findCrlfAux])
  | succ f ih =>
      intro i c j h
      rw [findCrlfAux] at h
      by_cases h1 : i < buf.length - 1
      · rw [if_pos h1] at h
        by_cases h2 : buf.getD i 0 = 13 ∧ buf.getD (i + 1) 0 = 10
        · rw [if_pos h2] at h
          by_cases h3 : c + 1 = nth
          · rw [if_pos h3] at h
            injection h with h
            subst h
            exact ⟨by omega, h2.1, h2.2⟩
          · rw [if_neg h3] at h
            exact ih _ _ _ h
        · rw [if_neg h2] at h
          exact ih _ _ _ h
      · rw [if_neg h1] at h
        cases h

theorem find_crlf_sound {buf : List Nat} {nth j : Nat} (h : find_crlf buf nth = some j) :
    j + 1 < buf.length ∧ buf.getD j 0 = 13 ∧ buf.getD (j + 1) 0 = 10 :=
  findCrlfAux_sound buf nth buf.length 0 0 j h

theorem findCrlfAux_eq_firstPair (buf : List Nat) :
    ∀ fuel i, buf.length ≤ i + fuel →
      findCrlfAux buf 1 fuel i 0 = (firstPair (buf.drop i)).map (· + i) := by
  intro fuel
  induction fuel with
  | zero =>
      intro i h
      rw [List.drop_eq_nil_of_le (by omega)]
      rfl
  | succ f ih =>
      intro i h
      by_cases hlt : i < buf.length - 1
      · have hi : i < buf.length := by omega
        have hi1 : i + 1 < buf.length := by omega
        have hdrop : buf.drop i = buf[i] :: buf.drop (i + 1) :=
          List.drop_eq_getElem_cons hi
        have hdrop1 : buf.drop (i + 1) = buf[i + 1] :: buf.drop (i + 2) :=
          List.drop_eq_getElem_cons hi1
        have hgd : buf.getD i 0 = buf[i] := List.getD_eq_getElem buf 0 hi
        have hgd1 : buf.getD (i + 1) 0 = buf[i + 1] := List.getD_eq_getElem buf 0 hi1
        rw [findCrlfAux, if_pos hlt, hdrop, hdrop1, firstPair, hgd, hgd1]
        by_cases hp : buf[i] = 13 ∧ buf[i + 1] = 10
        · rw [if_pos hp, if_pos hp, if_pos rfl]
          simp
        · rw [if_neg hp, if_neg hp, ih (i + 1) (by omega), hdrop1]
          cases hX : firstPair (buf[i + 1] :: buf.drop (i + 2)) with
          | none => simp
          | some a => simp; omega
      · rw [findCrlfAux, if_neg hlt,
          firstPair_short (show (buf.drop i).length ≤ 1 by simp; omega)]
        rfl

theorem find_crlf_one_eq_firstPair (buf : List Nat) : find_crlf buf 1 = firstPair buf := by
  rw [find_crlf, findCrlfAux_eq_firstPair buf buf.length 0 (by omega)]
  simp

theorem hasPair_cons_false {a b : Nat} {t : List Nat} (h : hasPair (a :: b :: t) = false) :
    ¬(a = 13 ∧ b = 10) ∧ hasPair (b :: t) = false := by
  simp only [hasPair, Bool.or_eq_false_iff, decide_eq_false_iff_not] at h
  exact h

theorem hasPair_cons_ne {p : Nat} (hp : p ≠ 13) (s : List Nat) :
    hasPair (p :: s) = hasPair s := by
  cases s with
  | nil => rfl
  | cons b t => simp [hasPair, hp]

theorem no13_hasPair_false {s : List Nat} (h : ∀ c ∈ s, c ≠ 13) : hasPair s = false := by
  induction s with
  | nil => rfl
  | cons a t ih =>
      cases t with
      | nil => rfl
      | cons b u =>
          simp only [hasPair, Bool.or_eq_false_iff, decide_eq_false_iff_not]
          refine ⟨fun hc => h a (by simp) hc.1, ?_⟩
          exact ih fun c hc => h c (by simp [hc])

theorem firstPair_none_of_no_pair {s : List Nat} (h : hasPair s = false) :
    firstPair s = none := by
  induction s with
  | nil => rfl
  | cons a t ih =>
      cases t with
      | nil => rfl
      | cons b u =>
          obtain ⟨h1, h2⟩ := hasPair_cons_false h
          rw [firstPair, if_neg h1, ih h2]
          rfl

theorem firstPair_append_crlf {s : List Nat} (h : hasPair s = false) (rest : List Nat) :
    firstPair (s ++ 13 :: 10 :: rest) = some s.length := by
  induction s with
  | nil =>
      show firstPair (13 :: 10 :: rest) = some 0
      rw [firstPair, if_pos ⟨rfl, rfl⟩]
  | cons a s' ih =>
      cases s' with
      | nil =>
          show firstPair (a :: 13 :: 10 :: rest) = some 1
          have hne : ¬(a = 13 ∧ (13 : Nat) = 10) := by omega
          rw [firstPair, if_neg hne, firstPair, if_pos ⟨rfl, rfl⟩]
          rfl
      | cons b s'' =>
          obtain ⟨h1, h2⟩ := hasPair_cons_false h
          have hstep : (a :: b :: s'') ++ 13 :: 10 :: rest
              = a :: b :: (s'' ++ 13 :: 10 :: rest) := by simp
          rw [hstep, firstPair, if_neg h1]
          have hbody' : firstPair (b :: (s'' ++ 13 :: 10 :: rest))
              = some (s''.length + 1) := by
            have hc : (b :: s'') ++ 13 :: 10 :: rest
                = b :: (s'' ++ 13 :: 10 :: rest) := rfl
            rw [← hc, ih h2]
            rfl
          rw [hbody']
          rfl

/-! ## Lemmas: `extract_simple_frame_data` and slicing on encoded frames -/

theorem extract_encoded {p : Nat} {s : List Nat} (hp : hasPair (p :: s) = false)
    (rest : List Nat) :
    extract_simple_frame_data (p :: s ++ 13 :: 10 :: rest) [p] = .ok (s.length + 1) := by
  unfold extract_simple_frame_data
  rw [if_neg (by simp; omega), if_neg (by simp [List.isPrefixOf]),
    find_crlf_one_eq_firstPair]
  have hrw : p :: s ++ 13 :: 10 :: rest = (p :: s) ++ 13 :: 10 :: rest := rfl
  rw [hrw, firstPair_append_crlf hp]
  rfl

theorem sliceOf_encoded (p : Nat) (s rest : List Nat) :
    sliceOf (p :: s ++ 13 :: 10 :: rest) 1 (s.length + 1) = s := by
  unfold sliceOf
  have h1 : (p :: s ++ 13 :: 10 :: rest).take (s.length + 1)
      = p :: (s ++ 13 :: 10 :: rest).take s.length := by
    simp [List.take_succ_cons]
  rw [h1, List.take_left]
  rfl

theorem drop_encoded (p : Nat) (s rest : List Nat) :
    (p :: s ++ 13 :: 10 :: rest).drop (s.length + 1 + CRLF_LEN) = rest := by
  have hrw : p :: s ++ 13 :: 10 :: rest = (p :: s ++ [13, 10]) ++ rest := by simp
  have hlen : (p :: s ++ [13, 10]).length = s.length + 1 + CRLF_LEN := by
    simp [CRLF_LEN]
  rw [hrw, ← hlen, List.drop_left]

/-! ## Lemmas: float formatting and parsing -/

theorem splitAtFirst_no_hit {p : Nat → Bool} : ∀ l : List Nat,
    (∀ c ∈ l, p c = false) → splitAtFirst p l = (l, none) := by
  intro l
  induction l with
  | nil => intro _; rfl
  | cons c t ih =>
      intro h
      have hc : p c = false := h c (List.mem_cons_self c t)
      simp only [splitAtFirst, hc, Bool.false_eq_true, if_false,
        ih (fun x hx => h x (List.mem_cons_of_mem c hx))]

theorem splitAtFirst_marker {p : Nat → Bool} : ∀ (a : List Nat) (c₀ : Nat) (b : List Nat),
    (∀ c ∈ a, p c = false) → p c₀ = true →
    splitAtFirst p (a ++ c₀ :: b) = (a, some b) := by
  intro a
  induction a with
  | nil =>
      intro c₀ b _ hc
      simp only [List.nil_append, splitAtFirst, hc, if_true]
  | cons c t ih =>
      intro c₀ b h hc
      have hcf : p c = false := h c (List.mem_cons_self c t)
      simp only [List.cons_append, splitAtFirst, hcf, Bool.false_eq_true, if_false]
      rw [show t.append (c₀ :: b) = t ++ c₀ :: b from rfl,
        ih c₀ b (fun x hx => h x (List.mem_cons_of_mem c hx)) hc]

theorem toLowerByte_digit {c : Nat} (h1 : 48 ≤ c) (h2 : c ≤ 57) : toLowerByte c = c := by
  unfold toLowerByte
  rw [if_neg]
  omega

theorem map_toLower_ne_word {r : List Nat} {c : Nat} (hh : r.head? = some c)
    (h1 : 48 ≤ c) (h2 : c ≤ 57) (w : List Nat) (hd : ∀ d ∈ w.head?, 97 ≤ d) :
    r.map toLowerByte ≠ w := by
  intro he
  cases r with
  | nil => simp at hh
  | cons x t =>
      simp only [List.head?_cons, Option.some.injEq] at hh
      subst hh
      subst he
      have hx := hd (toLowerByte x) (by simp)
      rw [toLowerByte_digit h1 h2] at hx
      omega

theorem parseSignedInt_intDecimal (x : Int) : parseSignedInt (intDecimal x) = some x := by
  by_cases hneg : x < 0
  · simp only [intDecimal, if_pos hneg]
    unfold parseSignedInt
    simp only [List.head?_cons, List.tail_cons]
    rw [if_pos trivial, digitsOnly_natDigits]
    show some (-(x.natAbs : Int)) = some x
    congr 1
    omega
  · simp only [intDecimal, if_neg hneg]
    obtain ⟨c, hc, h1, h2⟩ := natDigits_head?_digit x.toNat
    unfold parseSignedInt
    rw [if_neg (by rw [hc]; intro heq; injection heq; omega),
      if_neg (by rw [hc]; intro heq; injection heq; omega),
      digitsOnly_natDigits]
    show some ((x.toNat : Int)) = some x
    congr 1
    omega

theorem digitsVal_cons_48 (x : List Nat) : digitsVal (48 :: x) = digitsVal x := by
  simp [digitsVal]

theorem digitsVal_replicate_48 (k : Nat) : digitsVal (List.replicate k 48) = 0 := by
  induction k with
  | zero => rfl
  | succ j ih =>
      rw [List.replicate_succ]
      rw [digitsVal_cons_48 _, ih]

theorem isDigits_replicate_48 (k : Nat) : isDigits (List.replicate k 48) = true := by
  simp only [isDigits, List.all_eq_true]
  intro c hc
  rw [List.eq_of_mem_replicate hc]
  rfl

theorem isDigits_append_iff (s t : List Nat) :
    isDigits (s ++ t) = (isDigits s && isDigits t) := by
  simp [isDigits, List.all_append]

theorem canonAux_of_ndiv {m : Nat} (hm : m % 10 ≠ 0) (e : Int) :
    ∀ fuel, m ≤ fuel → canonAux fuel m e = (m, e) := by
  intro fuel hf
  have hm0 : m ≠ 0 := by omega
  cases fuel with
  | zero => omega
  | succ f =>
      rw [canonAux, if_neg (by intro hc; exact hm hc.1)]

theorem canonAux_mul_pow {m : Nat} (hm : m % 10 ≠ 0) :
    ∀ (j : Nat) (e : Int) (fuel : Nat), m * 10 ^ j ≤ fuel →
      canonAux fuel (m * 10 ^ j) e = (m, e + j) := by
  intro j
  induction j with
  | zero =>
      intro e fuel hf
      rw [pow_zero, mul_one] at hf ⊢
      rw [canonAux_of_ndiv hm e fuel hf]
      simp
  | succ i ih =>
      intro e fuel hf
      have hm0 : m ≠ 0 := by omega
      have hX : 0 < m * 10 ^ i := by positivity
      have hmul : m * 10 ^ (i + 1) = m * 10 ^ i * 10 := by ring
      have hpos : 0 < m * 10 ^ (i + 1) := by positivity
      obtain ⟨f, rfl⟩ : ∃ f, fuel = f + 1 := ⟨fuel - 1, by omega⟩
      rw [canonAux, if_pos ⟨by rw [hmul]; exact Nat.mul_mod_left _ 10, by positivity⟩]
      have hdiv : m * 10 ^ (i + 1) / 10 = m * 10 ^ i := by
        rw [hmul]
        exact Nat.mul_div_cancel _ (by norm_num)
      rw [hmul] at hf
      rw [hdiv, ih (e + 1) f (by omega)]
      congr 1
      push_cast
      ring

theorem mkF64_canon {neg : Bool} {m : Nat} {e : Int}
    (hc : isCanonF (.fin neg m e) = true) : mkF64 neg m e = .fin neg m e := by
  by_cases hm : m = 0
  · subst hm
    have he : e = 0 := by
      have h2 := hc
      simp [isCanonF] at h2
      exact h2
    subst he
    rfl
  · simp only [isCanonF, if_neg hm, decide_eq_true_eq] at hc
    unfold mkF64
    rw [if_neg hm, canonAux_of_ndiv hc e m (le_refl m)]

theorem mkF64_mul_pow {neg : Bool} {m : Nat} (hm : m % 10 ≠ 0) (j : Nat) (e : Int) :
    mkF64 neg (m * 10 ^ j) e = .fin neg m (e + j) := by
  have hm0 : m ≠ 0 := by omega
  have hne : m * 10 ^ j ≠ 0 := by positivity
  unfold mkF64
  rw [if_neg hne, canonAux_mul_pow hm j e (m * 10 ^ j) (le_refl _)]

theorem not_eE_of_digits {s : List Nat} (h : isDigits s = true) :
    ∀ x ∈ s, (decide (x = 101) || decide (x = 69)) = false := by
  intro x hx
  have := digits_bounds h hx
  simp
  omega

theorem not_dot_of_digits {s : List Nat} (h : isDigits s = true) :
    ∀ x ∈ s, (decide (x = 46) : Bool) = false := by
  intro x hx
  have := digits_bounds h hx
  simp
  omega

theorem parseFloatBody_guard {neg : Bool} {r : List Nat} {c : Nat}
    (hh : r.head? = some c) (h1 : 48 ≤ c) (h2 : c ≤ 57) :
    parseFloatBody neg r = parseMantissa neg
      (splitAtFirst (fun c => c = 46) (splitAtFirst (fun c => c = 101 || c = 69) r).1).1
      ((splitAtFirst (fun c => c = 46) (splitAtFirst (fun c => c = 101 || c = 69) r).1).2.getD [])
      (expVal (splitAtFirst (fun c => c = 101 || c = 69) r).2) := by
  unfold parseFloatBody
  rw [if_neg (map_toLower_ne_word hh h1 h2 (strBytes "nan") (by decide)),
    if_neg (by
      push_neg
      exact ⟨map_toLower_ne_word hh h1 h2 (strBytes "inf") (by decide),
        map_toLower_ne_word hh h1 h2 (strBytes "infinity") (by decide)⟩)]

theorem parseMantissa_digits {neg : Bool} {ip fp : List Nat}
    (hd : isDigits (ip ++ fp) = true) (hne : ip ++ fp ≠ []) (k : Int) :
    parseMantissa neg ip fp (some k)
      = some (mkF64 neg (digitsVal (ip ++ fp)) (k - fp.length)) := by
  unfold parseMantissa
  rw [if_neg (by simp [hd, hne])]

theorem parseFloatBody_sci {neg : Bool} {m : Nat} {e : Int}
    (hcan : isCanonF (.fin neg m e) = true) :
    parseFloatBody neg (sciDigits m e) = some (.fin neg m e) := by
  obtain ⟨c, t, hds, hc1, hc2⟩ := natDigits_head_digit m
  have hdsv := digitsVal_natDigits m
  have hdsd := natDigits_isDigits m
  cases t with
  | nil =>
      have hsci : sciDigits m e = [c] ++ 101 :: intDecimal e := by
        simp only [sciDigits, hds]
        simp [show e + ((1 : Nat) : Int) - 1 = e by push_cast; ring]
      have hcd : isDigits [c] = true := by rw [← hds]; exact hdsd
      rw [hsci, parseFloatBody_guard (by rfl) hc1 hc2]
      have h1' := splitAtFirst_marker [c] 101 (intDecimal e) (not_eE_of_digits hcd)
        (by decide)
      have h2' := splitAtFirst_no_hit [c] (not_dot_of_digits hcd)
      simp only [h1', h2', expVal, Option.getD_none]
      rw [parseSignedInt_intDecimal]
      have hdd : isDigits (([c] : List Nat) ++ []) = true := by simpa using hcd
      have hnn : (([c] : List Nat) ++ []) ≠ [] := by simp
      rw [parseMantissa_digits hdd hnn]
      simp only [List.append_nil, List.length_nil, Nat.cast_zero, sub_zero]
      have hvc : digitsVal [c] = m := by rw [← hds]; exact hdsv
      rw [hvc, mkF64_canon hcan]
  | cons b t' =>
      have hlen : (natDigits m).length = t'.length + 2 := by rw [hds]; simp
      have hsci : sciDigits m e
          = (c :: 46 :: b :: t') ++ 101 :: intDecimal (e + ((t'.length + 1 : Nat) : Int)) := by
        simp only [sciDigits, hds, hlen]
        simp
        congr 1
        ring
      have hbt : isDigits (b :: t') = true := by
        rw [hds] at hdsd
        simp only [isDigits, List.all_cons, Bool.and_eq_true] at hdsd ⊢
        exact hdsd.2
      have hcd : isDigits [c] = true := by
        simp [isDigits, isDigit]
        omega
      have hmemE : ∀ x ∈ c :: 46 :: b :: t',
          (decide (x = 101) || decide (x = 69)) = false := by
        intro x hx
        have hx3 : x = c ∨ x = 46 ∨ x ∈ b :: t' := by
          simp only [List.mem_cons] at hx ⊢
          tauto
        rcases hx3 with rfl | rfl | hx''
        · simp
          omega
        · decide
        · have := digits_bounds hbt hx''
          simp
          omega
      rw [hsci, parseFloatBody_guard (by rfl) hc1 hc2]
      have h1' := splitAtFirst_marker (c :: 46 :: b :: t') 101
        (intDecimal (e + ((t'.length + 1 : Nat) : Int))) hmemE (by decide)
      simp only [h1']
      rw [show (c :: 46 :: b :: t' : List Nat) = [c] ++ 46 :: (b :: t') from rfl]
      have h2' := splitAtFirst_marker [c] 46 (b :: t') (not_dot_of_digits hcd) (by decide)
      simp only [h2', expVal, Option.getD_some]
      rw [parseSignedInt_intDecimal]
      have hdd : isDigits (([c] : List Nat) ++ b :: t') = true := by
        rw [show ([c] ++ b :: t' : List Nat) = c :: b :: t' from rfl, ← hds]
        exact hdsd
      rw [parseMantissa_digits hdd (by simp)]
      rw [show ([c] ++ b :: t' : List Nat) = c :: b :: t' from rfl, ← hds, hdsv]
      have he : e + ((t'.length + 1 : Nat) : Int) - ((b :: t').length : Int) = e := by
        push_cast
        simp
      rw [he, mkF64_canon hcan]

theorem isDigits_take {s : List Nat} (h : isDigits s = true) (n : Nat) :
    isDigits (s.take n) = true := by
  simp only [isDigits, List.all_eq_true] at h ⊢
  intro c hc
  exact h c (List.mem_of_mem_take hc)

theorem isDigits_drop {s : List Nat} (h : isDigits s = true) (n : Nat) :
    isDigits (s.drop n) = true := by
  simp only [isDigits, List.all_eq_true] at h ⊢
  intro c hc
  exact h c (List.mem_of_mem_drop hc)

theorem parseFloatBody_positional {neg : Bool} {m : Nat} {e : Int}
    (hcan : isCanonF (.fin neg m e) = true) (hm : m ≠ 0) :
    parseFloatBody neg (positionalDigits m e) = some (.fin neg m e) := by
  obtain ⟨c, t, hds, hc1, hc2⟩ := natDigits_head_digit m
  have hdsv := digitsVal_natDigits m
  have hdsd := natDigits_isDigits m
  have hcm : m % 10 ≠ 0 := by
    have h2 := hcan
    simp only [isCanonF, if_neg hm, decide_eq_true_eq] at h2
    exact h2
  by_cases he : 0 ≤ e
  · have hpos : positionalDigits m e = natDigits m ++ List.replicate e.toNat 48 := by
      simp only [positionalDigits, if_pos he]
    have hdall : isDigits (natDigits m ++ List.replicate e.toNat 48) = true := by
      rw [isDigits_append_iff, hdsd, isDigits_replicate_48]
      rfl
    have hh : (natDigits m ++ List.replicate e.toNat 48).head? = some c := by
      rw [hds]
      rfl
    rw [hpos, parseFloatBody_guard hh hc1 hc2]
    have h1' := splitAtFirst_no_hit _ (not_eE_of_digits hdall)
    have h2' := splitAtFirst_no_hit _ (not_dot_of_digits hdall)
    simp only [h1', h2', expVal, Option.getD_none]
    have hdd : isDigits ((natDigits m ++ List.replicate e.toNat 48) ++ []) = true := by
      simpa using hdall
    have hnn : ((natDigits m ++ List.replicate e.toNat 48) ++ []) ≠ [] := by
      simp [natDigits_ne_nil m]
    rw [parseMantissa_digits hdd hnn]
    have hval : digitsVal ((natDigits m ++ List.replicate e.toNat 48) ++ [])
        = m * 10 ^ e.toNat := by
      rw [List.append_nil, digitsVal_append, digitsVal_replicate_48,
        List.length_replicate, hdsv]
      ring
    rw [hval]
    simp only [List.append_nil, List.length_nil, Nat.cast_zero, sub_zero]
    rw [mkF64_mul_pow hcm]
    have hze : (0 : Int) + e.toNat = e := by omega
    rw [hze]
  · push_neg at he
    by_cases hkL : (-e).toNat < (natDigits m).length
    · obtain ⟨j, hj⟩ : ∃ j, (natDigits m).length - (-e).toNat = j + 1 :=
        ⟨(natDigits m).length - (-e).toNat - 1, by omega⟩
      have htake : (natDigits m).take ((natDigits m).length - (-e).toNat)
          = c :: t.take j := by
        rw [hj, hds, List.take_succ_cons]
      have hpos : positionalDigits m e
          = (c :: t.take j) ++ 46 :: (natDigits m).drop ((natDigits m).length - (-e).toNat) := by
        simp only [positionalDigits, if_neg (by omega : ¬ (0 : Int) ≤ e), if_pos hkL, htake]
        simp
      have htd : isDigits (c :: t.take j) = true := by
        rw [← htake]
        exact isDigits_take hdsd _
      have hfd : isDigits ((natDigits m).drop ((natDigits m).length - (-e).toNat)) = true :=
        isDigits_drop hdsd _
      rw [hpos, parseFloatBody_guard (by rfl) hc1 hc2]
      have hmemE : ∀ x ∈ (c :: t.take j)
          ++ 46 :: (natDigits m).drop ((natDigits m).length - (-e).toNat),
          (decide (x = 101) || decide (x = 69)) = false := by
        intro x hx
        rcases List.mem_append.mp hx with hx1 | hx2
        · have := digits_bounds htd hx1
          simp
          omega
        · rcases List.mem_cons.mp hx2 with rfl | hx3
          · decide
          · have := digits_bounds hfd hx3
            simp
            omega
      have h1' := splitAtFirst_marker ((c :: t.take j)) 46
        ((natDigits m).drop ((natDigits m).length - (-e).toNat))
        (not_dot_of_digits htd) (by decide)
      have h0' := splitAtFirst_no_hit
        ((c :: t.take j) ++ 46 :: (natDigits m).drop ((natDigits m).length - (-e).toNat))
        hmemE
      simp only [h0', h1', expVal, Option.getD_some]
      have hmant : (c :: t.take j) ++ (natDigits m).drop ((natDigits m).length - (-e).toNat)
          = natDigits m := by
        rw [← htake]
        exact List.take_append_drop _ _
      have hdd : isDigits ((c :: t.take j)
          ++ (natDigits m).drop ((natDigits m).length - (-e).toNat)) = true := by
        rw [hmant]
        exact hdsd
      rw [parseMantissa_digits hdd (by simp)]
      rw [hmant, hdsv]
      have hlend : (((natDigits m).drop ((natDigits m).length - (-e).toNat)).length : Int)
          = -e := by
        rw [List.length_drop]
        omega
      rw [hlend]
      have hze : (0 : Int) - -e = e := by ring
      rw [hze, mkF64_canon hcan]
    · have hpos : positionalDigits m e
        = 48 :: 46 :: (List.replicate ((-e).toNat - (natDigits m).length) 48 ++ natDigits m) := by
        simp only [positionalDigits, if_neg (by omega : ¬ (0 : Int) ≤ e), if_neg hkL]
        simp
      have hfd : isDigits (List.replicate ((-e).toNat - (natDigits m).length) 48
          ++ natDigits m) = true := by
        rw [isDigits_append_iff, isDigits_replicate_48, hdsd]
        rfl
      rw [hpos, parseFloatBody_guard (by rfl) (by norm_num) (by norm_num)]
      have hmemE : ∀ x ∈ (48 : Nat) :: 46 :: (List.replicate ((-e).toNat - (natDigits m).length) 48
          ++ natDigits m), (decide (x = 101) || decide (x = 69)) = false := by
        intro x hx
        rcases List.mem_cons.mp hx with rfl | hx2
        · decide
        rcases List.mem_cons.mp hx2 with rfl | hx3
        · decide
        · have := digits_bounds hfd hx3
          simp
          omega
      have h0' := splitAtFirst_no_hit
        ((48 : Nat) :: 46 :: (List.replicate ((-e).toNat - (natDigits m).length) 48 ++ natDigits m))
        hmemE
      simp only [h0']
      rw [show ((48 : Nat) :: 46 :: (List.replicate ((-e).toNat - (natDigits m).length) 48
          ++ natDigits m)) = [48] ++ 46 :: (List.replicate ((-e).toNat - (natDigits m).length) 48
          ++ natDigits m) from rfl]
      have h1' := splitAtFirst_marker [48] 46
        (List.replicate ((-e).toNat - (natDigits m).length) 48 ++ natDigits m)
        (not_dot_of_digits (show isDigits [48] = true by decide)) (by decide)
      simp only [h1', expVal, Option.getD_some]
      have hdd : isDigits (([48] : List Nat)
          ++ (List.replicate ((-e).toNat - (natDigits m).length) 48 ++ natDigits m)) = true := by
        rw [show (([48] : List Nat) ++ (List.replicate ((-e).toNat - (natDigits m).length) 48
          ++ natDigits m)) = 48 :: (List.replicate ((-e).toNat - (natDigits m).length) 48
          ++ natDigits m) from rfl]
        simp only [isDigits, List.all_cons, Bool.and_eq_true]
        exact ⟨by rfl, hfd⟩
      rw [parseMantissa_digits hdd (by simp)]
      have hval : digitsVal (([48] : List Nat)
          ++ (List.replicate ((-e).toNat - (natDigits m).length) 48 ++ natDigits m)) = m := by
        rw [show (([48] : List Nat) ++ (List.replicate ((-e).toNat - (natDigits m).length) 48
          ++ natDigits m)) = 48 :: (List.replicate ((-e).toNat - (natDigits m).length) 48
          ++ natDigits m) from rfl]
        rw [digitsVal_cons_48, digitsVal_append, digitsVal_replicate_48, hdsv]
        ring
      rw [hval]
      have hlend : (((List.replicate ((-e).toNat - (natDigits m).length) 48
          ++ natDigits m)).length : Int) = -e := by
        rw [List.length_append, List.length_replicate]
        have hL1 : 1 ≤ (natDigits m).length := by
          cases hq : natDigits m with
          | nil => exact absurd hq (natDigits_ne_nil m)
          | cons x xs => simp
        omega
      rw [hlend]
      have hze : (0 : Int) - -e = e := by ring
      rw [hze, mkF64_canon hcan]

theorem f64Lt_fin_zero_neg {m : Nat} (hm : m ≠ 0) (e : Int) :
    f64Lt (.fin true m e) zeroF64 = true := by
  show finLtB true m e false 0 0 = true
  unfold finLtB finScaled
  simp only [decide_eq_true_eq, if_true, if_false, Bool.false_eq_true]
  have h10 : (0 : Int) < 10 ^ ((e - min e 0).toNat) := by positivity
  have hmp : (0 : Int) < (m : Int) := by exact_mod_cast Nat.pos_of_ne_zero hm
  have := mul_pos hmp h10
  push_cast
  nlinarith

theorem f64Lt_fin_zero_nonneg (m : Nat) (e : Int) :
    f64Lt (.fin false m e) zeroF64 = false := by
  show finLtB false m e false 0 0 = false
  unfold finLtB finScaled
  simp only [decide_eq_false_iff_not, if_false, Bool.false_eq_true]
  intro hlt
  have h10 : (0 : Int) ≤ 10 ^ ((e - min e 0).toNat) := by positivity
  have hmp : (0 : Int) ≤ (m : Int) := by positivity
  have hmul := mul_nonneg hmp h10
  simp at hlt
  linarith

theorem f64Lt_zero_em8 (e : Int) : f64Lt (.fin false 0 e) oneEm8 = true := by
  show finLtB false 0 e false 1 (-8) = true
  unfold finLtB finScaled
  simp only [decide_eq_true_eq]
  have h10 : (0 : Int) < 10 ^ (((-8 : Int) - min e (-8)).toNat) := by positivity
  simp

theorem parseFloat_f64Payload {d : F64} (hcan : isCanonF d = true) :
    parseFloat (f64Payload d) = some d := by
  cases d with
  | nan => rfl
  | inf => rfl
  | neginf => rfl
  | fin neg m e =>
      unfold f64Payload
      by_cases hbr : (f64Gt (f64Abs (.fin neg m e)) oneE8
          || f64Lt (f64Abs (.fin neg m e)) oneEm8) = true
      · rw [if_pos hbr]
        cases neg with
        | false =>
            show parseFloat (43 :: sciDigits m e) = _
            unfold parseFloat
            simp only [List.head?_cons, List.tail_cons]
            rw [if_neg (by intro h; injection h; omega), if_pos trivial]
            exact parseFloatBody_sci hcan
        | true =>
            show parseFloat (45 :: sciDigits m e) = _
            unfold parseFloat
            simp only [List.head?_cons, List.tail_cons]
            rw [if_pos trivial]
            exact parseFloatBody_sci hcan
      · rw [if_neg hbr]
        have hm : m ≠ 0 := by
          intro h0
          subst h0
          apply hbr
          have he0 : e = 0 := by
            have h2 := hcan
            simp [isCanonF] at h2
            exact h2
          subst he0
          have : f64Lt (f64Abs (.fin neg 0 0)) oneEm8 = true := by
            show f64Lt (.fin false 0 0) oneEm8 = true
            exact f64Lt_zero_em8 0
          rw [this]
          simp
        cases neg with
        | false =>
            rw [f64Lt_fin_zero_nonneg m e]
            show parseFloat (43 :: positionalDigits m e) = _
            unfold parseFloat
            simp only [List.head?_cons, List.tail_cons]
            rw [if_neg (by intro h; injection h; omega), if_pos trivial]
            exact parseFloatBody_positional hcan hm
        | true =>
            rw [f64Lt_fin_zero_neg hm e]
            show parseFloat (45 :: positionalDigits m e) = _
            unfold parseFloat
            simp only [List.head?_cons, List.tail_cons]
            rw [if_pos trivial]
            exact parseFloatBody_positional hcan hm

theorem intDecimal_ne13 {x : Int} {c : Nat} (hc : c ∈ intDecimal x) : c ≠ 13 := by
  unfold intDecimal at hc
  by_cases h : x < 0
  · rw [if_pos h] at hc
    rcases List.mem_cons.mp hc with rfl | h2
    · omega
    · have := natDigits_mem_bounds h2
      omega
  · rw [if_neg h] at hc
    have := natDigits_mem_bounds hc
    omega

theorem positionalDigits_ne13 {m : Nat} {e : Int} {c : Nat}
    (hc : c ∈ positionalDigits m e) : c ≠ 13 := by
  unfold positionalDigits at hc
  by_cases h : 0 ≤ e
  · rw [if_pos h] at hc
    rcases List.mem_append.mp hc with h2 | h2
    · have := natDigits_mem_bounds h2
      omega
    · rw [List.eq_of_mem_replicate h2]
      omega
  · rw [if_neg h] at hc
    by_cases hk : (-e).toNat < (natDigits m).length
    · rw [if_pos hk] at hc
      rcases List.mem_append.mp hc with h2 | h2
      · rcases List.mem_append.mp h2 with h3 | h3
        · have := natDigits_mem_bounds (List.mem_of_mem_take h3)
          omega
        · simp at h3
          omega
      · have := natDigits_mem_bounds (List.mem_of_mem_drop h2)
        omega
    · rw [if_neg hk] at hc
      rcases List.mem_append.mp hc with h2 | h2
      · rcases List.mem_append.mp h2 with h3 | h3
        · simp at h3
          rcases h3 with rfl | rfl <;> omega
        · rw [List.eq_of_mem_replicate h3]
          omega
      · have := natDigits_mem_bounds h2
        omega

theorem sciDigits_ne13 {m : Nat} {e : Int} {c : Nat} (hc : c ∈ sciDigits m e) : c ≠ 13 := by
  unfold sciDigits at hc
  rcases List.mem_append.mp hc with h2 | h2
  · rcases List.mem_append.mp h2 with h3 | h3
    · rcases List.mem_append.mp h3 with h4 | h4
      · have := natDigits_mem_bounds (List.mem_of_mem_take h4)
        omega
      · by_cases hl : (natDigits m).length ≤ 1
        · rw [if_pos hl] at h4
          simp at h4
        · rw [if_neg hl] at h4
          rcases List.mem_cons.mp h4 with rfl | h5
          · omega
          · have := natDigits_mem_bounds (List.mem_of_mem_drop h5)
            omega
    · simp at h3
      omega
  · exact intDecimal_ne13 h2

theorem f64Payload_ne13 (d : F64) : ∀ c ∈ f64Payload d, c ≠ 13 := by
  cases d with
  | nan => decide
  | inf => decide
  | neginf => decide
  | fin neg m e =>
      intro c hc
      unfold f64Payload at hc
      by_cases hbr : (f64Gt (f64Abs (.fin neg m e)) oneE8
          || f64Lt (f64Abs (.fin neg m e)) oneEm8) = true
      · rw [if_pos hbr] at hc
        unfold lowerExpPlusBytes at hc
        cases neg with
        | false =>
            rcases List.mem_cons.mp hc with rfl | h2
            · omega
            · exact sciDigits_ne13 h2
        | true =>
            rcases List.mem_cons.mp hc with rfl | h2
            · omega
            · exact sciDigits_ne13 h2
      · rw [if_neg hbr] at hc
        rcases List.mem_append.mp hc with h2 | h2
        · by_cases hlt : f64Lt (.fin neg m e) zeroF64 = true
          · rw [if_pos hlt] at h2
            simp at h2
          · rw [if_neg hlt] at h2
            simp at h2
            omega
        · unfold displayBytes at h2
          cases neg with
          | false =>
              simp only [if_false, List.nil_append, Bool.false_eq_true] at h2
              exact positionalDigits_ne13 h2
          | true =>
              rcases List.mem_cons.mp h2 with rfl | h3
              · omega
              · exact positionalDigits_ne13 h3

/-! ## Lemmas: the ordered map -/

theorem sortedP_cons (k : List Nat) (v : RespFrame) (m : PairList) :
    sortedP (.cons k v m) = (allKeyLt k m && sortedP m) := rfl

theorem allKeyLt_cons (k k' : List Nat) (v : RespFrame) (t : PairList) :
    allKeyLt k (.cons k' v t) = (keyLt k k' && allKeyLt k t) := rfl

theorem insertPair_cons (k : List Nat) (v : RespFrame) (k' : List Nat) (v' : RespFrame)
    (t : PairList) :
    insertPair k v (.cons k' v' t)
      = if keyLt k k' then .cons k v (.cons k' v' t)
        else if k = k' then .cons k v t
        else .cons k' v' (insertPair k v t) := rfl

theorem pairList_ind {motive : PairList → Prop} (nil : motive .nil)
    (cons : ∀ k v t, motive t → motive (.cons k v t)) : ∀ mp : PairList, motive mp
  | .nil => nil
  | .cons k v t => cons k v t (pairList_ind nil cons t)

theorem frameList_ind {motive : FrameList → Prop} (nil : motive .nil)
    (cons : ∀ f t, motive t → motive (.cons f t)) : ∀ xs : FrameList, motive xs
  | .nil => nil
  | .cons f t => cons f t (frameList_ind nil cons t)

theorem keyLt_irrefl : ∀ k : List Nat, keyLt k k = false := by
  intro k
  induction k with
  | nil => rfl
  | cons a s ih =>
      rw [keyLt]
      simp [ih]

theorem keyLt_trans : ∀ a b c : List Nat,
    keyLt a b = true → keyLt b c = true → keyLt a c = true := by
  intro a
  induction a with
  | nil =>
      intro b c hab hbc
      cases c with
      | nil =>
          cases b with
          | nil => exact hab
          | cons y t => exact absurd hbc (by rw [keyLt]; simp)
      | cons z u => rfl
  | cons x s ih =>
      intro b c hab hbc
      cases b with
      | nil => exact absurd hab (by rw [keyLt]; simp)
      | cons y t =>
          cases c with
          | nil => exact absurd hbc (by rw [keyLt]; simp)
          | cons z u =>
              rw [keyLt] at hab hbc ⊢
              by_cases hxy : x < y
              · by_cases hyz : y < z
                · rw [if_pos (by omega)]
                · rw [if_neg hyz] at hbc
                  by_cases hzy : z < y
                  · rw [if_pos hzy] at hbc
                    cases hbc
                  · have : y = z := by omega
                    subst this
                    rw [if_pos hxy]
              · rw [if_neg hxy] at hab
                by_cases hyx : y < x
                · rw [if_pos hyx] at hab
                  cases hab
                · have hxy' : x = y := by omega
                  subst hxy'
                  rw [if_neg hxy] at hab
                  by_cases hxz : x < z
                  · rw [if_pos hxz]
                  · rw [if_neg hxz] at hbc ⊢
                    by_cases hzx : z < x
                    · rw [if_pos hzx] at hbc
                      cases hbc
                    · rw [if_neg hzx] at hbc ⊢
                      exact ih t u hab hbc

theorem keyLt_total : ∀ a b : List Nat,
    keyLt a b = true ∨ a = b ∨ keyLt b a = true := by
  intro a
  induction a with
  | nil =>
      intro b
      cases b with
      | nil => right; left; rfl
      | cons y t => left; rfl
  | cons x s ih =>
      intro b
      cases b with
      | nil => right; right; rfl
      | cons y t =>
          by_cases hxy : x < y
          · left
            rw [keyLt, if_pos hxy]
          · by_cases hyx : y < x
            · right; right
              rw [keyLt, if_pos hyx]
            · have hxy' : x = y := by omega
              subst hxy'
              rcases ih t with h | h | h
              · left
                rw [keyLt, if_neg hxy, if_neg hxy]
                exact h
              · right; left
                rw [h]
              · right; right
                rw [keyLt, if_neg hxy, if_neg hxy]
                exact h

theorem keyLt_asymm {a b : List Nat} (h : keyLt a b = true) : keyLt b a = false := by
  by_contra hne
  have hba : keyLt b a = true := by
    cases hq : keyLt b a
    · exact absurd hq hne
    · rfl
  have := keyLt_trans a b a h hba
  rw [keyLt_irrefl] at this
  cases this

/-- Every key of the map is strictly below `k`. -/
def allKeyLtTo (k : List Nat) : PairList → Bool
  | .nil => true
  | .cons k' _ t => keyLt k' k && allKeyLtTo k t

theorem allKeyLt_appendP_head {k₀ k : List Nat} {v : RespFrame} :
    ∀ (a : PairList) (t : PairList),
    allKeyLt k₀ (appendP a (.cons k v t)) = true → keyLt k₀ k = true := by
  intro a
  induction a using pairList_ind with
  | nil =>
      intro t h
      rw [appendP, allKeyLt, Bool.and_eq_true] at h
      exact h.1
  | cons k₁ v₁ a' ih =>
      intro t h
      rw [appendP, allKeyLt, Bool.and_eq_true] at h
      exact ih t h.2

theorem sortedP_appendP_keys {k : List Nat} {v : RespFrame} :
    ∀ (acc t : PairList), sortedP (appendP acc (.cons k v t)) = true →
      allKeyLtTo k acc = true := by
  intro acc
  induction acc using pairList_ind with
  | nil => intro t _; rfl
  | cons k₀ v₀ a ih =>
      intro t h
      rw [appendP, sortedP, Bool.and_eq_true] at h
      rw [allKeyLtTo, Bool.and_eq_true]
      exact ⟨allKeyLt_appendP_head a t h.1, ih t h.2⟩

theorem insertPair_append {k : List Nat} {v : RespFrame} :
    ∀ acc : PairList, allKeyLtTo k acc = true →
      insertPair k v acc = appendP acc (.cons k v .nil) := by
  intro acc
  induction acc using pairList_ind with
  | nil => intro _; rfl
  | cons k₀ v₀ a ih =>
      intro h
      rw [allKeyLtTo, Bool.and_eq_true] at h
      rw [insertPair, if_neg (by rw [keyLt_asymm h.1]; simp),
        if_neg (by intro he; subst he; rw [keyLt_irrefl] at h; simp at h),
        ih h.2, appendP]

theorem appendP_assoc : ∀ a b c : PairList,
    appendP (appendP a b) c = appendP a (appendP b c) := by
  intro a b c
  induction a using pairList_ind with
  | nil => rfl
  | cons k v t ih => rw [appendP, appendP, appendP, ih]

theorem allKeyLt_of_lt {k k' : List Nat} (hkk : keyLt k k' = true) :
    ∀ t : PairList, allKeyLt k' t = true → allKeyLt k t = true := by
  intro t
  induction t using pairList_ind with
  | nil => intro _; rfl
  | cons k₁ v₁ t' ih =>
      intro h
      rw [allKeyLt, Bool.and_eq_true] at h ⊢
      exact ⟨keyLt_trans _ _ _ hkk h.1, ih h.2⟩

theorem allKeyLt_insert {k' k : List Nat} {v : RespFrame} (hlt : keyLt k' k = true) :
    ∀ t : PairList, allKeyLt k' t = true → allKeyLt k' (insertPair k v t) = true := by
  intro t
  induction t using pairList_ind with
  | nil =>
      intro _
      rw [insertPair, allKeyLt, hlt, allKeyLt]
      rfl
  | cons k₁ v₁ t' ih =>
      intro h
      rw [allKeyLt, Bool.and_eq_true] at h
      rw [insertPair]
      by_cases h1 : keyLt k k₁ = true
      · rw [if_pos h1, allKeyLt, hlt, allKeyLt, h.1, Bool.and_eq_true]
        simp [h.2]
      · rw [if_neg h1]
        by_cases h2 : k = k₁
        · rw [if_pos h2, allKeyLt, hlt, h.2]
          rfl
        · rw [if_neg h2, allKeyLt, h.1, ih h.2]
          rfl

theorem sortedP_insertPair (k : List Nat) (v : RespFrame) :
    ∀ mp : PairList, sortedP mp = true → sortedP (insertPair k v mp) = true := by
  intro mp
  induction mp using pairList_ind with
  | nil => intro _; rfl
  | cons k' v' t ih =>
      intro h
      rw [sortedP_cons, Bool.and_eq_true] at h
      rw [insertPair_cons]
      by_cases h1 : keyLt k k' = true
      · rw [if_pos h1, sortedP_cons, allKeyLt_cons, h1, allKeyLt_of_lt h1 t h.1,
          sortedP_cons, h.1, h.2]
        rfl
      · rw [if_neg h1]
        by_cases h2 : k = k'
        · subst h2
          rw [if_pos rfl, sortedP_cons, h.1, h.2]
          rfl
        · rw [if_neg h2, sortedP_cons, Bool.and_eq_true]
          have h3 : keyLt k' k = true := by
            rcases keyLt_total k k' with h4 | h4 | h4
            · exact absurd h4 h1
            · exact absurd h4 h2
            · exact h4
          exact ⟨allKeyLt_insert h3 t h.1, ih h.2⟩

theorem insertPair_dup (k : List Nat) (v v' : RespFrame) :
    ∀ mp : PairList, insertPair k v (insertPair k v' mp) = insertPair k v mp := by
  intro mp
  induction mp using pairList_ind with
  | nil =>
      show insertPair k v (.cons k v' .nil) = .cons k v .nil
      rw [insertPair_cons, if_neg (by rw [keyLt_irrefl]; simp), if_pos rfl]
  | cons k₀ v₀ t ih =>
      by_cases h1 : keyLt k k₀ = true
      · have e1 : insertPair k v' (.cons k₀ v₀ t) = .cons k v' (.cons k₀ v₀ t) := by
          rw [insertPair_cons, if_pos h1]
        have e2 : insertPair k v (.cons k₀ v₀ t) = .cons k v (.cons k₀ v₀ t) := by
          rw [insertPair_cons, if_pos h1]
        rw [e1, e2, insertPair_cons, if_neg (by rw [keyLt_irrefl]; simp), if_pos rfl]
      · by_cases h2 : k = k₀
        · have e1 : insertPair k v' (.cons k₀ v₀ t) = .cons k v' t := by
            rw [insertPair_cons, if_neg h1, if_pos h2]
          have e2 : insertPair k v (.cons k₀ v₀ t) = .cons k v t := by
            rw [insertPair_cons, if_neg h1, if_pos h2]
          rw [e1, e2, insertPair_cons, if_neg (by rw [keyLt_irrefl]; simp), if_pos rfl]
        · have e1 : insertPair k v' (.cons k₀ v₀ t) = .cons k₀ v₀ (insertPair k v' t) := by
            rw [insertPair_cons, if_neg h1, if_neg h2]
          have e2 : insertPair k v (.cons k₀ v₀ t) = .cons k₀ v₀ (insertPair k v t) := by
            rw [insertPair_cons, if_neg h1, if_neg h2]
          rw [e1, e2, insertPair_cons, if_neg h1, if_neg h2, ih]

/-! ## Lemmas: decoder dispatch (definitional unfoldings per prefix byte) -/

theorem decodeFrame_at43 (fuel : Nat) (t : List Nat) :
    decodeFrame (fuel + 1) (43 :: t)
      = match extract_simple_frame_data (43 :: t) [43] with
        | .error er => .err er
        | .ok e => .ok (.simpleString (sliceOf (43 :: t) 1 e))
            ((43 :: t).drop (e + CRLF_LEN)) := rfl

theorem decodeFrame_at45 (fuel : Nat) (t : List Nat) :
    decodeFrame (fuel + 1) (45 :: t)
      = match extract_simple_frame_data (45 :: t) [45] with
        | .error er => .err er
        | .ok e => .ok (.simpleError (sliceOf (45 :: t) 1 e))
            ((45 :: t).drop (e + CRLF_LEN)) := rfl

theorem decodeFrame_at58 (fuel : Nat) (t : List Nat) :
    decodeFrame (fuel + 1) (58 :: t)
      = match extract_simple_frame_data (58 :: t) [58] with
        | .error er => .err er
        | .ok e =>
            match parseI64 (sliceOf (58 :: t) 1 e) with
            | some i => .ok (.integer i) ((58 :: t).drop (e + CRLF_LEN))
            | none => .err .parseIntError := rfl

theorem decodeFrame_at35 (fuel : Nat) (t : List Nat) :
    decodeFrame (fuel + 1) (35 :: t)
      = match extract_simple_frame_data (35 :: t) [35] with
        | .error er => .err er
        | .ok e =>
            if sliceOf (35 :: t) 1 e = [116] then
              .ok (.boolean true) ((35 :: t).drop (e + CRLF_LEN))
            else if sliceOf (35 :: t) 1 e = [102] then
              .ok (.boolean false) ((35 :: t).drop (e + CRLF_LEN))
            else .err .invalidFrame := rfl

theorem decodeFrame_at44 (fuel : Nat) (t : List Nat) :
    decodeFrame (fuel + 1) (44 :: t)
      = match extract_simple_frame_data (44 :: t) [44] with
        | .error er => .err er
        | .ok e =>
            match parseFloat (sliceOf (44 :: t) 1 e) with
            | some d => .ok (.double d) ((44 :: t).drop (e + CRLF_LEN))
            | none => .err .parseFloatError := rfl

theorem decodeFrame_at95 (fuel : Nat) (t : List Nat) :
    decodeFrame (fuel + 1) (95 :: t)
      = if (95 :: t).length < 3 then .err .notComplete
        else if (95 :: t).take 3 = [95, 13, 10] then .ok .null ((95 :: t).drop 3)
        else .err .invalidFrameType := rfl

theorem decodeFrame_at36 (fuel : Nat) (t : List Nat) :
    decodeFrame (fuel + 1) (36 :: t)
      = match extract_simple_frame_data (36 :: t) [36] with
        | .error er => .err er
        | .ok e =>
            if sliceOf (36 :: t) 1 e = [45, 49] then
              .ok .nullBulkString ((36 :: t).drop (e + CRLF_LEN))
            else
              match parseUsize (sliceOf (36 :: t) 1 e) with
              | none => .err .parseIntError
              | some n =>
                  if (36 :: t).length < e + CRLF_LEN + n + CRLF_LEN then .err .notComplete
                  else
                    .ok (.bulkString (((36 :: t).drop (e + CRLF_LEN)).take n))
                      ((36 :: t).drop (e + CRLF_LEN + n + CRLF_LEN)) := rfl

theorem decodeFrame_at42 (fuel : Nat) (t : List Nat) :
    decodeFrame (fuel + 1) (42 :: t)
      = match extract_simple_frame_data (42 :: t) [42] with
        | .error er => .err er
        | .ok e =>
            if sliceOf (42 :: t) 1 e = [45, 49] then
              .ok .nullArray ((42 :: t).drop (e + CRLF_LEN))
            else
              match parseUsize (sliceOf (42 :: t) 1 e) with
              | none => .err .parseIntError
              | some n =>
                  match decodeN (decodeFrame fuel) n ((42 :: t).drop (e + CRLF_LEN)) with
                  | .ok xs r => .ok (.array xs) r
                  | .err er => .err er
                  | .panicked => .panicked := rfl

theorem decodeFrame_at126 (fuel : Nat) (t : List Nat) :
    decodeFrame (fuel + 1) (126 :: t)
      = match extract_simple_frame_data (126 :: t) [126] with
        | .error er => .err er
        | .ok e =>
            match parseUsize (sliceOf (126 :: t) 1 e) with
            | none => .err .parseIntError
            | some n =>
                match decodeN (decodeFrame fuel) n ((126 :: t).drop (e + CRLF_LEN)) with
                | .ok xs r => .ok (.set xs) r
                | .err er => .err er
                | .panicked => .panicked := rfl

theorem decodeFrame_at37 (fuel : Nat) (t : List Nat) :
    decodeFrame (fuel + 1) (37 :: t)
      = match extract_simple_frame_data (37 :: t) [37] with
        | .error er => .err er
        | .ok e =>
            match parseUsize (sliceOf (37 :: t) 1 e) with
            | none => .err .parseIntError
            | some n =>
                match decodeMapN (decodeFrame fuel) n ((37 :: t).drop (e + CRLF_LEN)) .nil with
                | .ok m r => .ok (.map m) r
                | .err er => .err er
                | .panicked => .panicked := rfl

theorem drop_bulk_all (p : Nat) (s b rest : List Nat) :
    (p :: s ++ 13 :: 10 :: (b ++ 13 :: 10 :: rest)).drop
        (s.length + 1 + CRLF_LEN + b.length + CRLF_LEN) = rest := by
  have h1 : p :: s ++ 13 :: 10 :: (b ++ 13 :: 10 :: rest)
      = ((p :: s ++ [13, 10]) ++ (b ++ [13, 10])) ++ rest := by simp
  have h2 : ((p :: s ++ [13, 10]) ++ (b ++ [13, 10])).length
      = s.length + 1 + CRLF_LEN + b.length + CRLF_LEN := by
    simp [CRLF_LEN]
    omega
  rw [h1, ← h2, List.drop_left]

/-! ## Lemmas: `PartialEq` reflexivity on NaN-free frames -/

theorem f64Eq_refl {d : F64} (h : isNanF d = false) : f64Eq d d = true := by
  cases d with
  | nan => simp [isNanF] at h
  | inf => rfl
  | neginf => rfl
  | fin neg m e =>
      show finEqB neg m e neg m e = true
      unfold finEqB
      simp

mutual

theorem frameEqF_refl : ∀ f : RespFrame, hasNanF f = false → frameEqF f f = true
  | .simpleString s, _ => by
      show decide (s = s) = true
      simp
  | .simpleError s, _ => by
      show decide (s = s) = true
      simp
  | .integer i, _ => by
      show decide (i = i) = true
      simp
  | .bulkString b, _ => by
      show decide (b = b) = true
      simp
  | .nullBulkString, _ => rfl
  | .array xs, h => frameEqL_refl xs h
  | .null, _ => rfl
  | .nullArray, _ => rfl
  | .boolean b, _ => by
      show decide (b = b) = true
      simp
  | .double d, h => f64Eq_refl h
  | .map m, h => frameEqP_refl m h
  | .set xs, h => frameEqL_refl xs h

theorem frameEqL_refl : ∀ xs : FrameList, hasNanL xs = false → frameEqL xs xs = true
  | .nil, _ => rfl
  | .cons f t, h => by
      have h2 : hasNanF f = false ∧ hasNanL t = false := by
        have h' : (hasNanF f || hasNanL t) = false := h
        simpa [Bool.or_eq_false_iff] using h'
      show (frameEqF f f && frameEqL t t) = true
      rw [frameEqF_refl f h2.1, frameEqL_refl t h2.2]
      rfl

theorem frameEqP_refl : ∀ mp : PairList, hasNanP mp = false → frameEqP mp mp = true
  | .nil, _ => rfl
  | .cons k v t, h => by
      have h2 : hasNanF v = false ∧ hasNanP t = false := by
        have h' : (hasNanF v || hasNanP t) = false := h
        simpa [Bool.or_eq_false_iff] using h'
      show (decide (k = k) && frameEqF v v && frameEqP t t) = true
      rw [frameEqF_refl v h2.1, frameEqP_refl t h2.2]
      simp

end

/-! ## The round-trip theorem: decode ∘ encode = id on well-formed frames -/

theorem appendP_nil : ∀ a : PairList, appendP a .nil = a := by
  intro a
  induction a using pairList_ind with
  | nil => rfl
  | cons k v t ih => rw [appendP, ih]

theorem decodeN_succ (d : List Nat → DecRes) (n : Nat) (data : List Nat) :
    decodeN d (n + 1) data
      = match d data with
        | .ok f r =>
            match decodeN d n r with
            | .ok xs r2 => .ok (.cons f xs) r2
            | .err er => .err er
            | .panicked => .panicked
        | .err er => .err er
        | .panicked => .panicked := rfl

theorem decodeMapN_succ (d : List Nat → DecRes) (n : Nat) (data : List Nat) (acc : PairList) :
    decodeMapN d (n + 1) data acc
      = match decodeSimpleStringKey data with
        | .error er => .err er
        | .ok (k, rest₁) =>
            match d rest₁ with
            | .ok v rest₂ => decodeMapN d n rest₂ (insertPair k v acc)
            | .err er => .err er
            | .panicked => .panicked := rfl

theorem decodeKey_encoded {s : List Nat} (hp : hasPair (43 :: s) = false) (rest' : List Nat) :
    decodeSimpleStringKey (43 :: s ++ 13 :: 10 :: rest') = .ok (s, rest') := by
  unfold decodeSimpleStringKey
  rw [extract_encoded hp rest']
  simp only [sliceOf_encoded, drop_encoded]

mutual

theorem roundF : ∀ (v : RespFrame) (fuel : Nat) (rest : List Nat), wfF v = true →
    depthF v < fuel → decodeFrame fuel (encodeFrame v ++ rest) = .ok v rest
  | .simpleString s, fuel, rest, h, hf => by
      obtain ⟨f, rfl⟩ : ∃ f, fuel = f + 1 := ⟨fuel - 1, by omega⟩
      have hs : hasPair s = false := by
        have h' : (!hasPair s) = true := h
        simpa using h'
      have hp : hasPair (43 :: s) = false := by
        rw [hasPair_cons_ne (by omega) s]
        exact hs
      have hbuf : encodeFrame (.simpleString s) ++ rest = 43 :: s ++ 13 :: 10 :: rest := by
        simp [encodeFrame, CRLF]
      rw [hbuf, List.cons_append, decodeFrame_at43, ← List.cons_append, extract_encoded hp rest]
      simp only [sliceOf_encoded, drop_encoded]
  | .simpleError s, fuel, rest, h, hf => by
      obtain ⟨f, rfl⟩ : ∃ f, fuel = f + 1 := ⟨fuel - 1, by omega⟩
      have hs : hasPair s = false := by
        have h' : (!hasPair s) = true := h
        simpa using h'
      have hp : hasPair (45 :: s) = false := by
        rw [hasPair_cons_ne (by omega) s]
        exact hs
      have hbuf : encodeFrame (.simpleError s) ++ rest = 45 :: s ++ 13 :: 10 :: rest := by
        simp [encodeFrame, CRLF]
      rw [hbuf, List.cons_append, decodeFrame_at45, ← List.cons_append, extract_encoded hp rest]
      simp only [sliceOf_encoded, drop_encoded]
  | .integer i, fuel, rest, h, hf => by
      obtain ⟨f, rfl⟩ : ∃ f, fuel = f + 1 := ⟨fuel - 1, by omega⟩
      have hrange : -(2 ^ 63) ≤ i ∧ i < 2 ^ 63 := by
        have h' : decide (-(2 ^ 63) ≤ i ∧ i < 2 ^ 63) = true := h
        simpa using h'
      have hp : hasPair
          (58 :: ((if i < 0 then ([] : List Nat) else [43]) ++ intDecimal i)) = false := by
        apply no13_hasPair_false
        intro c hc
        rcases List.mem_cons.mp hc with rfl | hc2
        · omega
        rcases List.mem_append.mp hc2 with hc3 | hc3
        · by_cases hi : i < 0
          · rw [if_pos hi] at hc3
            simp at hc3
          · rw [if_neg hi] at hc3
            simp at hc3
            omega
        · exact intDecimal_ne13 hc3
      have hbuf : encodeFrame (.integer i) ++ rest
          = 58 :: ((if i < 0 then ([] : List Nat) else [43]) ++ intDecimal i)
            ++ 13 :: 10 :: rest := by
        simp [encodeFrame, CRLF]
      rw [hbuf, List.cons_append, decodeFrame_at58, ← List.cons_append, extract_encoded hp rest]
      simp only [sliceOf_encoded, drop_encoded]
      rw [parseI64_encoded hrange.1 hrange.2]
  | .bulkString b, fuel, rest, h, hf => by
      obtain ⟨f, rfl⟩ : ∃ f, fuel = f + 1 := ⟨fuel - 1, by omega⟩
      have hlen : b.length < 2 ^ 64 := by
        have h' : decide (b.length < 2 ^ 64) = true := h
        simpa using h'
      have hp : hasPair (36 :: natDigits b.length) = false := by
        apply no13_hasPair_false
        intro c hc
        rcases List.mem_cons.mp hc with rfl | hc2
        · omega
        · have := natDigits_mem_bounds hc2
          omega
      have hbuf : encodeFrame (.bulkString b) ++ rest
          = 36 :: natDigits b.length ++ 13 :: 10 :: (b ++ 13 :: 10 :: rest) := by
        simp [encodeFrame, CRLF]
      rw [hbuf, List.cons_append, decodeFrame_at36, ← List.cons_append, extract_encoded hp (b ++ 13 :: 10 :: rest)]
      have hne1 := eq_false (natDigits_ne_neg_one b.length)
      have hbound : ((36 :: natDigits b.length ++ 13 :: 10 :: (b ++ 13 :: 10 :: rest)).length
          < (natDigits b.length).length + 1 + CRLF_LEN + b.length + CRLF_LEN) = False := by
        apply eq_false
        simp [CRLF_LEN]
        omega
      simp only [sliceOf_encoded, hne1, if_false, parseUsize_natDigits hlen, hbound,
        drop_encoded, List.take_left, drop_bulk_all]
  | .nullBulkString, fuel, rest, h, hf => by
      obtain ⟨f, rfl⟩ : ∃ f, fuel = f + 1 := ⟨fuel - 1, by omega⟩
      have hbuf : encodeFrame .nullBulkString ++ rest = 36 :: [45, 49] ++ 13 :: 10 :: rest := rfl
      rw [hbuf, List.cons_append, decodeFrame_at36, ← List.cons_append,
        extract_encoded (show hasPair (36 :: [45, 49]) = false by decide) rest]
      rfl
  | .array xs, fuel, rest, h, hf => by
      obtain ⟨f, rfl⟩ : ∃ f, fuel = f + 1 := ⟨fuel - 1, by omega⟩
      have h' : (decide (lengthL xs < 2 ^ 64) && wfL xs) = true := h
      simp only [Bool.and_eq_true, decide_eq_true_eq] at h'
      have hdep : depthL xs < f := by
        have hd1 : depthL xs + 1 < f + 1 := hf
        omega
      have hp : hasPair (42 :: natDigits (lengthL xs)) = false := by
        apply no13_hasPair_false
        intro c hc
        rcases List.mem_cons.mp hc with rfl | hc2
        · omega
        · have := natDigits_mem_bounds hc2
          omega
      have hbuf : encodeFrame (.array xs) ++ rest
          = 42 :: natDigits (lengthL xs) ++ 13 :: 10 :: (encodeFrameList xs ++ rest) := by
        simp [encodeFrame, CRLF]
      rw [hbuf, List.cons_append, decodeFrame_at42, ← List.cons_append, extract_encoded hp (encodeFrameList xs ++ rest)]
      have hne1 := eq_false (natDigits_ne_neg_one (lengthL xs))
      simp only [sliceOf_encoded, hne1, if_false, parseUsize_natDigits h'.1, drop_encoded]
      rw [roundL xs f rest h'.2 hdep]
  | .null, fuel, rest, h, hf => by
      obtain ⟨f, rfl⟩ : ∃ f, fuel = f + 1 := ⟨fuel - 1, by omega⟩
      have hbuf : encodeFrame .null ++ rest = 95 :: 13 :: 10 :: rest := rfl
      rw [hbuf, decodeFrame_at95, if_neg (by simp), if_pos (by simp)]
      simp
  | .nullArray, fuel, rest, h, hf => by
      obtain ⟨f, rfl⟩ : ∃ f, fuel = f + 1 := ⟨fuel - 1, by omega⟩
      have hbuf : encodeFrame .nullArray ++ rest = 42 :: [45, 49] ++ 13 :: 10 :: rest := rfl
      rw [hbuf, List.cons_append, decodeFrame_at42, ← List.cons_append,
        extract_encoded (show hasPair (42 :: [45, 49]) = false by decide) rest]
      rfl
  | .boolean b, fuel, rest, h, hf => by
      obtain ⟨f, rfl⟩ : ∃ f, fuel = f + 1 := ⟨fuel - 1, by omega⟩
      cases b with
      | true =>
          have hbuf : encodeFrame (.boolean true) ++ rest = 35 :: [116] ++ 13 :: 10 :: rest := rfl
          rw [hbuf, List.cons_append, decodeFrame_at35, ← List.cons_append,
            extract_encoded (show hasPair (35 :: [116]) = false by decide) rest]
          rfl
      | false =>
          have hbuf : encodeFrame (.boolean false) ++ rest
              = 35 :: [102] ++ 13 :: 10 :: rest := rfl
          rw [hbuf, List.cons_append, decodeFrame_at35, ← List.cons_append,
            extract_encoded (show hasPair (35 :: [102]) = false by decide) rest]
          rfl
  | .double d, fuel, rest, h, hf => by
      obtain ⟨f, rfl⟩ : ∃ f, fuel = f + 1 := ⟨fuel - 1, by omega⟩
      have hcan : isCanonF d = true := h
      have hp : hasPair (44 :: f64Payload d) = false := by
        apply no13_hasPair_false
        intro c hc
        rcases List.mem_cons.mp hc with rfl | hc2
        · omega
        · exact f64Payload_ne13 d c hc2
      have hbuf : encodeFrame (.double d) ++ rest = 44 :: f64Payload d ++ 13 :: 10 :: rest := by
        simp [encodeFrame, encodeF64, CRLF]
      rw [hbuf, List.cons_append, decodeFrame_at44, ← List.cons_append, extract_encoded hp rest]
      simp only [sliceOf_encoded, drop_encoded]
      rw [parseFloat_f64Payload hcan]
  | .map m, fuel, rest, h, hf => by
      obtain ⟨f, rfl⟩ : ∃ f, fuel = f + 1 := ⟨fuel - 1, by omega⟩
      have h' : ((decide (lengthP m < 2 ^ 64) && sortedP m) && wfP m) = true := h
      simp only [Bool.and_eq_true, decide_eq_true_eq] at h'
      have hdep : depthP m < f := by
        have hd1 : depthP m + 1 < f + 1 := hf
        omega
      have hp : hasPair (37 :: natDigits (lengthP m)) = false := by
        apply no13_hasPair_false
        intro c hc
        rcases List.mem_cons.mp hc with rfl | hc2
        · omega
        · have := natDigits_mem_bounds hc2
          omega
      have hbuf : encodeFrame (.map m) ++ rest
          = 37 :: natDigits (lengthP m) ++ 13 :: 10 :: (encodePairList m ++ rest) := by
        simp [encodeFrame, CRLF]
      rw [hbuf, List.cons_append, decodeFrame_at37, ← List.cons_append, extract_encoded hp (encodePairList m ++ rest)]
      simp only [sliceOf_encoded, parseUsize_natDigits h'.1.1, drop_encoded]
      rw [roundP m f rest .nil h'.2 hdep h'.1.2]
      rfl
  | .set xs, fuel, rest, h, hf => by
      obtain ⟨f, rfl⟩ : ∃ f, fuel = f + 1 := ⟨fuel - 1, by omega⟩
      have h' : (decide (lengthL xs < 2 ^ 64) && wfL xs) = true := h
      simp only [Bool.and_eq_true, decide_eq_true_eq] at h'
      have hdep : depthL xs < f := by
        have hd1 : depthL xs + 1 < f + 1 := hf
        omega
      have hp : hasPair (126 :: natDigits (lengthL xs)) = false := by
        apply no13_hasPair_false
        intro c hc
        rcases List.mem_cons.mp hc with rfl | hc2
        · omega
        · have := natDigits_mem_bounds hc2
          omega
      have hbuf : encodeFrame (.set xs) ++ rest
          = 126 :: natDigits (lengthL xs) ++ 13 :: 10 :: (encodeFrameList xs ++ rest) := by
        simp [encodeFrame, CRLF]
      rw [hbuf, List.cons_append, decodeFrame_at126, ← List.cons_append, extract_encoded hp (encodeFrameList xs ++ rest)]
      simp only [sliceOf_encoded, parseUsize_natDigits h'.1, drop_encoded]
      rw [roundL xs f rest h'.2 hdep]

theorem roundL : ∀ (xs : FrameList) (fuel : Nat) (rest : List Nat), wfL xs = true →
    depthL xs < fuel →
    decodeN (decodeFrame fuel) (lengthL xs) (encodeFrameList xs ++ rest) = .ok xs rest
  | .nil, fuel, rest, _, _ => rfl
  | .cons x t, fuel, rest, h, hfd => by
      have hw : wfF x = true ∧ wfL t = true := by
        have h' : (wfF x && wfL t) = true := h
        simpa using h'
      have hmax : max (depthF x) (depthL t) < fuel := hfd
      have hdx : depthF x < fuel := lt_of_le_of_lt (le_max_left _ _) hmax
      have hdt : depthL t < fuel := lt_of_le_of_lt (le_max_right _ _) hmax
      show decodeN (decodeFrame fuel) (lengthL t + 1)
        ((encodeFrame x ++ encodeFrameList t) ++ rest) = .ok (.cons x t) rest
      rw [List.append_assoc, decodeN_succ,
        roundF x fuel (encodeFrameList t ++ rest) hw.1 hdx]
      simp only [roundL t fuel rest hw.2 hdt]

theorem roundP : ∀ (mp : PairList) (fuel : Nat) (rest : List Nat) (acc : PairList),
    wfP mp = true → depthP mp < fuel → sortedP (appendP acc mp) = true →
    decodeMapN (decodeFrame fuel) (lengthP mp) (encodePairList mp ++ rest) acc
      = .ok (appendP acc mp) rest
  | .nil, fuel, rest, acc, _, _, _ => by
      rw [appendP_nil]
      rfl
  | .cons k v t, fuel, rest, acc, h, hfd, hsort => by
      have h' : ((!hasPair k && wfF v) && wfP t) = true := h
      simp only [Bool.and_eq_true, Bool.not_eq_true'] at h'
      have hmax : max (depthF v) (depthP t) < fuel := hfd
      have hdv : depthF v < fuel := lt_of_le_of_lt (le_max_left _ _) hmax
      have hdt : depthP t < fuel := lt_of_le_of_lt (le_max_right _ _) hmax
      have hp43 : hasPair (43 :: k) = false := by
        rw [hasPair_cons_ne (by omega) k]
        exact h'.1.1
      have hbuf : encodePairList (.cons k v t) ++ rest
          = 43 :: k ++ 13 :: 10 :: (encodeFrame v ++ (encodePairList t ++ rest)) := by
        simp [encodePairList, CRLF]
      show decodeMapN (decodeFrame fuel) (lengthP t + 1)
        (encodePairList (.cons k v t) ++ rest) acc = .ok (appendP acc (.cons k v t)) rest
      rw [hbuf, decodeMapN_succ,
        decodeKey_encoded hp43 (encodeFrame v ++ (encodePairList t ++ rest))]
      simp only [roundF v fuel (encodePairList t ++ rest) h'.1.2 hdv]
      have hins : insertPair k v acc = appendP acc (.cons k v .nil) :=
        insertPair_append acc (sortedP_appendP_keys acc t hsort)
      have hsort2 : sortedP (appendP (appendP acc (.cons k v .nil)) t) = true := by
        rw [appendP_assoc]
        exact hsort
      rw [hins, roundP t fuel rest (appendP acc (.cons k v .nil)) h'.2 hdt hsort2,
        appendP_assoc]
      rfl

end

/-! ## Lemmas: the Frame-Length Oracle -/

theorem measureN_succ (g : List Nat → LenRes) (n : Nat) (data : List Nat) (total : Nat) :
    measureN g (n + 1) data total
      = match g data with
        | .ok l => if data.length < l then .panicked else measureN g n (data.drop l) (total + l)
        | .err e => .err e
        | .panicked => .panicked := rfl

theorem measureMapN_succ (g : List Nat → LenRes) (n : Nat) (data : List Nat) (total : Nat) :
    measureMapN g (n + 1) data total
      = match simpleStringExpectLength data with
        | .ok l =>
            if data.length < l then .panicked
            else
              match g (data.drop l) with
              | .ok l₂ =>
                  if (data.drop l).length < l₂ then .panicked
                  else measureMapN g n ((data.drop l).drop l₂) (total + l + l₂)
              | .err e => .err e
              | .panicked => .panicked
        | .err e => .err e
        | .panicked => .panicked := rfl

theorem measureN_err_indep (g : List Nat → LenRes) :
    ∀ (n : Nat) (data : List Nat) (total total' : Nat) (er : RespErr),
      measureN g n data total = .err er → measureN g n data total' = .err er := by
  intro n
  induction n with
  | zero => intro data total total' er h; cases h
  | succ m ih =>
      intro data total total' er h
      rw [measureN_succ] at h ⊢
      cases hg : g data with
      | ok l =>
          simp only [hg] at h ⊢
          by_cases hl : data.length < l
          · rw [if_pos hl] at h; cases h
          · rw [if_neg hl] at h ⊢
            exact ih _ _ _ _ h
      | err e => simp only [hg] at h ⊢; exact h
      | panicked => simp only [hg] at h ⊢; cases h

theorem measureMapN_err_indep (g : List Nat → LenRes) :
    ∀ (n : Nat) (data : List Nat) (total total' : Nat) (er : RespErr),
      measureMapN g n data total = .err er → measureMapN g n data total' = .err er := by
  intro n
  induction n with
  | zero => intro data total total' er h; cases h
  | succ m ih =>
      intro data total total' er h
      rw [measureMapN_succ] at h ⊢
      cases hk : simpleStringExpectLength data with
      | ok l =>
          simp only [hk] at h ⊢
          by_cases hl : data.length < l
          · rw [if_pos hl] at h; cases h
          · rw [if_neg hl] at h ⊢
            cases hg : g (data.drop l) with
            | ok l₂ =>
                simp only [hg] at h ⊢
                by_cases hl₂ : (data.drop l).length < l₂
                · rw [if_pos hl₂] at h; cases h
                · rw [if_neg hl₂] at h ⊢
                  exact ih _ _ _ _ h
            | err e => simp only [hg] at h ⊢; exact h
            | panicked => simp only [hg] at h ⊢; cases h
      | err e => simp only [hk] at h ⊢; exact h
      | panicked => simp only [hk] at h ⊢; cases h

theorem extract_ok_bound {buf pfx : List Nat} {e : Nat}
    (h : extract_simple_frame_data buf pfx = .ok e) : e + CRLF_LEN ≤ buf.length := by
  unfold extract_simple_frame_data at h
  by_cases h1 : buf.length < 3
  · rw [if_pos h1] at h; cases h
  · rw [if_neg h1] at h
    by_cases h2 : pfx.isPrefixOf buf = true
    · rw [if_neg (not_not_intro h2)] at h
      cases hf : find_crlf buf 1 with
      | none => simp only [hf] at h; cases h
      | some j =>
          simp only [hf] at h
          injection h with h3
          have h4 := (find_crlf_sound hf).1
          have h5 : CRLF_LEN = 2 := rfl
          omega
    · rw [if_pos h2] at h; cases h

theorem extract_error_cases {buf pfx : List Nat} {er : RespErr}
    (h : extract_simple_frame_data buf pfx = .error er) :
    er = .notComplete ∨ er = .invalidFrameType := by
  unfold extract_simple_frame_data at h
  by_cases h1 : buf.length < 3
  · rw [if_pos h1] at h
    injection h with h2
    exact Or.inl h2.symm
  · rw [if_neg h1] at h
    by_cases h2 : pfx.isPrefixOf buf = true
    · rw [if_neg (not_not_intro h2)] at h
      cases hf : find_crlf buf 1 with
      | some j => simp only [hf] at h; cases h
      | none =>
          simp only [hf] at h
          injection h with h3
          exact Or.inl h3.symm
    · rw [if_pos h2] at h
      injection h with h3
      exact Or.inr h3.symm

theorem expectLength_cons (fuel : Nat) (b : Nat) (t : List Nat) :
    expectLength (fuel + 1) (b :: t)
      = if b = 43 ∨ b = 45 ∨ b = 58 ∨ b = 35 ∨ b = 44 then
          match extract_simple_frame_data (b :: t) [b] with
          | .ok e => .ok (e + CRLF_LEN)
          | .error er => .err er
        else if b = 95 then
          if (b :: t).length < 3 then .err .notComplete else .ok 3
        else if b = 36 then
          match extract_simple_frame_data (b :: t) [36] with
          | .error er => .err er
          | .ok e =>
              if sliceOf (b :: t) 1 e = [45, 49] then .ok (e + CRLF_LEN)
              else
                match parseUsize (sliceOf (b :: t) 1 e) with
                | some n => .ok (e + CRLF_LEN + n + CRLF_LEN)
                | none => .err .parseIntError
        else if b = 42 ∨ b = 126 ∨ b = 37 then
          match extract_simple_frame_data (b :: t) [b] with
          | .error er => .err er
          | .ok e =>
              if b = 42 ∧ sliceOf (b :: t) 1 e = [45, 49] then .ok (e + CRLF_LEN)
              else
                match parseUsize (sliceOf (b :: t) 1 e) with
                | some n => calc_total_length (expectLength fuel) (b :: t) e n [b]
                | none => .err .parseIntError
        else .err .invalidFrameType := rfl

/-! ## Lemmas: bytes of the float payloads -/

theorem positionalDigits_ne101 {m : Nat} {e : Int} {c : Nat}
    (hc : c ∈ positionalDigits m e) : c ≠ 101 := by
  unfold positionalDigits at hc
  by_cases h : 0 ≤ e
  · rw [if_pos h] at hc
    rcases List.mem_append.mp hc with h2 | h2
    · have := natDigits_mem_bounds h2
      omega
    · rw [List.eq_of_mem_replicate h2]
      omega
  · rw [if_neg h] at hc
    by_cases hk : (-e).toNat < (natDigits m).length
    · rw [if_pos hk] at hc
      rcases List.mem_append.mp hc with h2 | h2
      · rcases List.mem_append.mp h2 with h3 | h3
        · have := natDigits_mem_bounds (List.mem_of_mem_take h3)
          omega
        · simp at h3
          omega
      · have := natDigits_mem_bounds (List.mem_of_mem_drop h2)
        omega
    · rw [if_neg hk] at hc
      rcases List.mem_append.mp hc with h2 | h2
      · rcases List.mem_append.mp h2 with h3 | h3
        · simp at h3
          rcases h3 with rfl | rfl <;> omega
        · rw [List.eq_of_mem_replicate h3]
          omega
      · have := natDigits_mem_bounds h2
        omega

theorem sciDigits_mem101 (m : Nat) (e : Int) : 101 ∈ sciDigits m e := by
  unfold sciDigits
  refine List.mem_append.mpr (Or.inl ?_)
  refine List.mem_append.mpr (Or.inr ?_)
  simp

/-! ## The claims -/

/-- C1: for every well-formed frame value `v` (texts without CRLF, numbers in
range, map keys sorted, canonical float representations) that contains no
NaN, decoding the bytes produced by encoding `v` yields a value equal to `v`
(PartialEq), and the decode consumes exactly `encode(v).length` bytes — the
trailing `rest` is untouched.  The NaN exclusion is necessary: see the
counterexample `claim1_nan_roundtrip_cex`. -/
theorem claim1_roundtrip (v : RespFrame) (fuel : Nat) (rest : List Nat)
    (hw : wfF v = true) (hn : hasNanF v = false) (hf : depthF v < fuel) :
    decodeFrame fuel (encodeFrame v ++ rest) = .ok v rest ∧ frameEqF v v = true :=
  ⟨roundF v fuel rest hw hf, frameEqF_refl v hn⟩

/-- C1 witness: the round-trip at the concrete frame `SimpleString("OK")`
with one trailing byte. -/
theorem claim1_roundtrip_witness :
    decodeFrame 1 (encodeFrame (.simpleString (strBytes "OK")) ++ [88])
        = .ok (.simpleString (strBytes "OK")) [88]
      ∧ frameEqF (.simpleString (strBytes "OK")) (.simpleString (strBytes "OK")) = true :=
  claim1_roundtrip (.simpleString (strBytes "OK")) 1 [88] (by decide) (by decide) (by decide)

/-- C1 counterexample: `Double(NaN)` encodes as `,+NaN\r\n`, decodes back to
the same NaN frame — but `decode(encode(v)) == v` is false, because IEEE
`PartialEq` makes `NaN != NaN`. -/
theorem claim1_nan_roundtrip_cex :
    decodeFrame 1 (encodeFrame (.double .nan)) = .ok (.double .nan) []
      ∧ frameEqF (.double .nan) (.double .nan) = false :=
  ⟨rfl, rfl⟩

/-- C2: the completeness-monotonicity bound does hold for the
fixed-terminator frames (`+ - : # ,`) and Null (`_`): a concrete length the
oracle returns for them never exceeds the buffer's length.  (For BulkString
it fails — see `claim2_bulk_overrun_cex`.) -/
theorem claim2_oracle_bound (fuel : Nat) (buf : List Nat) (b l : Nat)
    (hb : buf.head? = some b)
    (hfix : b = 43 ∨ b = 45 ∨ b = 58 ∨ b = 35 ∨ b = 44 ∨ b = 95)
    (hok : expectLength (fuel + 1) buf = .ok l) :
    l ≤ buf.length := by
  cases buf with
  | nil => cases hb
  | cons c t =>
      rw [List.head?_cons] at hb
      injection hb with hb
      subst hb
      rw [expectLength_cons] at hok
      have main : (c = 43 ∨ c = 45 ∨ c = 58 ∨ c = 35 ∨ c = 44) ∨ c = 95 := by
        rcases hfix with h | h | h | h | h | h
        · exact Or.inl (Or.inl h)
        · exact Or.inl (Or.inr (Or.inl h))
        · exact Or.inl (Or.inr (Or.inr (Or.inl h)))
        · exact Or.inl (Or.inr (Or.inr (Or.inr (Or.inl h))))
        · exact Or.inl (Or.inr (Or.inr (Or.inr (Or.inr h))))
        · exact Or.inr h
      rcases main with h5 | h95
      · rw [if_pos h5] at hok
        cases hx : extract_simple_frame_data (c :: t) [c] with
        | error er => simp only [hx] at hok; cases hok
        | ok e =>
            simp only [hx] at hok
            injection hok with h2
            have h3 := extract_ok_bound hx
            omega
      · subst h95
        rw [if_neg (by decide), if_pos rfl] at hok
        by_cases hl : (95 :: t).length < 3
        · rw [if_pos hl] at hok; cases hok
        · rw [if_neg hl] at hok
          injection hok with h2
          omega

/-- C2 witness: the bound at the complete simple string `+OK\r\n`, whose
oracle length 5 equals the buffer length. -/
theorem claim2_oracle_bound_witness : 5 ≤ (strBytes "+OK\r\n").length :=
  claim2_oracle_bound 0 (strBytes "+OK\r\n") 43 5 rfl (Or.inl rfl) rfl

/-- C2 counterexample: `expect_length("$5\r\n")` is NotComplete one byte
earlier, and on the 4-byte buffer returns 11 — a length computed from the
declared payload, whose bytes are not present (11 > 4).  On an aggregate the
same over-declared length even panics (`&data[len..]` out of range) instead
of returning NotComplete. -/
theorem claim2_bulk_overrun_cex :
    expectLength 2 (strBytes "$5\r") = .err .notComplete
      ∧ strBytes "$5\r" ++ strBytes "\n" = strBytes "$5\r\n"
      ∧ expectLength 2 (strBytes "$5\r\n") = .ok 11
      ∧ ¬ (11 ≤ (strBytes "$5\r\n").length)
      ∧ expectLength 2 (strBytes "*1\r\n$5\r\nab\r\n") = .panicked :=
  ⟨rfl, rfl, rfl, by decide, rfl⟩

/-- C3: the aggregate walk of the length oracle.  An error from a nested
frame (NotComplete included) propagates out of `measureN`/`measureMapN` at
once — from the head frame directly, and in general the returned error is
independent of the running total, so no partial total is ever returned; the
Map loop measures a SimpleString key frame then the value frame, in that
order, and errors of either propagate; concretely, `*2\r\n$3\r\nset\r\n` is
NotComplete and appending `$5\r\nhello\r\n` yields the full buffer's size
24. -/
theorem claim3_oracle_walk :
    (∀ (g : List Nat → LenRes) (n : Nat) (data : List Nat) (total : Nat) (er : RespErr),
        g data = .err er → measureN g (n + 1) data total = .err er)
      ∧ (∀ (g : List Nat → LenRes) (n : Nat) (data : List Nat) (total total' : Nat)
            (er : RespErr),
          measureN g n data total = .err er → measureN g n data total' = .err er)
      ∧ (∀ (g : List Nat → LenRes) (n : Nat) (data : List Nat) (total : Nat) (er : RespErr),
          simpleStringExpectLength data = .err er → measureMapN g (n + 1) data total = .err er)
      ∧ (∀ (g : List Nat → LenRes) (n : Nat) (data : List Nat) (total l : Nat) (er : RespErr),
          simpleStringExpectLength data = .ok l → ¬ data.length < l →
          g (data.drop l) = .err er → measureMapN g (n + 1) data total = .err er)
      ∧ (∀ (g : List Nat → LenRes) (n : Nat) (data : List Nat) (total total' : Nat)
            (er : RespErr),
          measureMapN g n data total = .err er → measureMapN g n data total' = .err er)
      ∧ expectLength 30 (strBytes "*2\r\n$3\r\nset\r\n") = .err .notComplete
      ∧ expectLength 30 (strBytes "*2\r\n$3\r\nset\r\n" ++ strBytes "$5\r\nhello\r\n") = .ok 24
      ∧ (strBytes "*2\r\n$3\r\nset\r\n" ++ strBytes "$5\r\nhello\r\n").length = 24 := by
  refine ⟨?_, fun g => measureN_err_indep g, ?_, ?_, fun g => measureMapN_err_indep g,
    rfl, rfl, rfl⟩
  · intro g n data total er h
    rw [measureN_succ, h]
  · intro g n data total er h
    rw [measureMapN_succ, h]
  · intro g n data total l er hk hl hg
    rw [measureMapN_succ]
    simp only [hk]
    rw [if_neg hl]
    simp only [hg]

/-- C4: when the expected prefix matches, a buffer with no adjacent `\r\n`
pair — a lone trailing `\r` included — makes the fixed-terminator extraction
signal NotComplete (both CR and LF must be present for a match).  The
prefix hypothesis is necessary: see `claim4_wrong_type_cex`. -/
theorem claim4_no_crlf_not_complete (buf pfx : List Nat)
    (hpref : pfx.isPrefixOf buf = true) (hnp : hasPair buf = false) :
    extract_simple_frame_data buf pfx = .error .notComplete := by
  unfold extract_simple_frame_data
  by_cases h1 : buf.length < 3
  · rw [if_pos h1]
  · rw [if_neg h1, if_neg (not_not_intro hpref), find_crlf_one_eq_firstPair,
      firstPair_none_of_no_pair hnp]

/-- C4 witness: `+ab\r` — a lone trailing CR — is NotComplete. -/
theorem claim4_no_crlf_not_complete_witness :
    extract_simple_frame_data (strBytes "+ab\r") (strBytes "+") = .error .notComplete :=
  claim4_no_crlf_not_complete (strBytes "+ab\r") (strBytes "+") (by decide) (by decide)

/-- C4 counterexample: `xyz` contains no `\r\n` pair, yet extraction with
expected prefix `+` signals InvalidFrameType, not NotComplete — the claim's
"for every buffer that contains no adjacent \r\n pair" is too broad. -/
theorem claim4_wrong_type_cex :
    hasPair (strBytes "xyz") = false
      ∧ extract_simple_frame_data (strBytes "xyz") (strBytes "+") = .error .invalidFrameType
      ∧ RespErr.invalidFrameType ≠ RespErr.notComplete :=
  ⟨rfl, rfl, by decide⟩

/-- C5: the f64 encoder emits the scientific form (the payload contains the
lowercase exponent marker `e`, byte 101 — positional text never does) if and
only if `|d| > 1e8 || |d| < 1e-8`, with no nonzero exclusion; and the
claim's three concrete examples encode as stated. -/
theorem claim5_sci_branch (neg : Bool) (m : Nat) (e : Int) :
    ((101 ∈ f64Payload (.fin neg m e))
        ↔ (f64Gt (f64Abs (.fin neg m e)) oneE8 || f64Lt (f64Abs (.fin neg m e)) oneEm8) = true)
      ∧ encodeF64 (.fin false 123456 3) = strBytes ",+1.23456e8\r\n"
      ∧ encodeF64 (.fin false 1234567 (-6)) = strBytes ",+1.234567\r\n"
      ∧ encodeF64 (.fin true 123456 (-14)) = strBytes ",-1.23456e-9\r\n" := by
  refine ⟨?_, rfl, rfl, rfl⟩
  by_cases hbr : (f64Gt (f64Abs (.fin neg m e)) oneE8
      || f64Lt (f64Abs (.fin neg m e)) oneEm8) = true
  · refine iff_of_true ?_ hbr
    unfold f64Payload
    rw [if_pos hbr]
    unfold lowerExpPlusBytes
    exact List.mem_append.mpr (Or.inr (sciDigits_mem101 m e))
  · refine iff_of_false ?_ hbr
    intro hmem
    unfold f64Payload at hmem
    rw [if_neg hbr] at hmem
    rcases List.mem_append.mp hmem with h2 | h2
    · by_cases hlt : f64Lt (.fin neg m e) zeroF64 = true
      · rw [if_pos hlt] at h2; simp at h2
      · rw [if_neg hlt] at h2; simp at h2
    · unfold displayBytes at h2
      rcases List.mem_append.mp h2 with h3 | h3
      · cases neg with
        | false => simp at h3
        | true => simp at h3
      · exact positionalDigits_ne101 h3 rfl

/-- C5 counterexample: `0.0` is not "nonzero", so by the claim's iff it
should take the fixed-point branch; but `0 < 1e-8` holds, the encoder takes
the scientific branch, and `0.0` encodes as `,+0e0\r\n` (payload containing
the exponent marker). -/
theorem claim5_zero_sci_cex :
    encodeF64 zeroF64 = strBytes ",+0e0\r\n"
      ∧ 101 ∈ f64Payload zeroF64
      ∧ ¬ (f64Gt (f64Abs zeroF64) oneE8 = true
            ∨ (f64Lt (f64Abs zeroF64) oneEm8 = true ∧ f64Eq zeroF64 zeroF64 = false)) :=
  ⟨rfl, by decide, by decide⟩

/-- C6: inserting a duplicate key overwrites (never duplicates) the entry,
insertion keeps the key order strictly ascending (so keys stay distinct and
the emitted `%n` counts distinct keys), and the Map built by inserting
`hello` then `foo` encodes with `foo` first, exactly as the claim's bytes
state. -/
theorem claim6_map_encode :
    (∀ (k : List Nat) (v v' : RespFrame) (mp : PairList),
        insertPair k v (insertPair k v' mp) = insertPair k v mp)
      ∧ (∀ (k : List Nat) (v : RespFrame) (mp : PairList),
          sortedP mp = true → sortedP (insertPair k v mp) = true)
      ∧ encodeFrame (.map (insertPair (strBytes "foo") (.double (.fin true 123456789 (-8)))
            (insertPair (strBytes "hello") (.bulkString (strBytes "world")) .nil)))
          = strBytes "%2\r\n+foo\r\n,-1.23456789\r\n+hello\r\n$5\r\nworld\r\n"
      ∧ lengthP (insertPair (strBytes "foo") (.double (.fin true 123456789 (-8)))
            (insertPair (strBytes "hello") (.bulkString (strBytes "world")) .nil)) = 2 :=
  ⟨fun k v v' mp => insertPair_dup k v v' mp,
   fun k v mp h => sortedP_insertPair k v mp h, rfl, rfl⟩

/-- C7: `parse_length` can only return NotComplete, InvalidFrameType,
ParseIntError, or a parsed pair — never InvalidFrameLength: malformed digits
surface as ParseIntError through the `?` conversion from `str::parse`.  The
claim's "signals InvalidFrameLength" is wrong (see
`claim7_parse_int_error_cex`). -/
theorem claim7_parse_length_errors (buf pfx : List Nat) :
    parse_length buf pfx = .error .notComplete
      ∨ parse_length buf pfx = .error .invalidFrameType
      ∨ parse_length buf pfx = .error .parseIntError
      ∨ ∃ p : Nat × Nat, parse_length buf pfx = .ok p := by
  cases hx : extract_simple_frame_data buf pfx with
  | error er =>
      have hpl : parse_length buf pfx = .error er := by
        unfold parse_length
        rw [hx]
      rcases extract_error_cases hx with h | h
      · subst h; exact Or.inl hpl
      · subst h; exact Or.inr (Or.inl hpl)
  | ok e =>
      cases hp : parseUsize (sliceOf buf pfx.length e) with
      | none =>
          refine Or.inr (Or.inr (Or.inl ?_))
          unfold parse_length
          rw [hx]
          simp only [hp]
      | some n =>
          refine Or.inr (Or.inr (Or.inr ⟨(e, n), ?_⟩))
          unfold parse_length
          rw [hx]
          simp only [hp]

/-- C7 counterexample: the header line `*ab\r\n` is fully present with
malformed digits, and the parse signals ParseIntError — not
InvalidFrameLength as the claim states. -/
theorem claim7_parse_int_error_cex :
    parse_length (strBytes "*ab\r\n") (strBytes "*") = .error .parseIntError
      ∧ RespErr.parseIntError ≠ RespErr.invalidFrameLength :=
  ⟨rfl, by decide⟩

/-- C8: with a non-matching prefix the extraction's answer depends on the
buffer's size after all — the length check runs first, so a wrong-prefix
buffer signals NotComplete below 3 bytes and InvalidFrameType only from 3
bytes up. -/
theorem claim8_type_check_order (buf pfx : List Nat)
    (hpref : pfx.isPrefixOf buf = false) :
    extract_simple_frame_data buf pfx
      = .error (if buf.length < 3 then .notComplete else .invalidFrameType) := by
  unfold extract_simple_frame_data
  by_cases h1 : buf.length < 3
  · rw [if_pos h1, if_pos h1]
  · rw [if_neg h1, if_neg h1, if_pos (by simp [hpref])]

/-- C8 witness: the wrong-prefix buffer `xyz` (3 bytes). -/
theorem claim8_type_check_order_witness :
    extract_simple_frame_data (strBytes "xyz") (strBytes "+")
      = .error (if (strBytes "xyz").length < 3 then .notComplete else .invalidFrameType) :=
  claim8_type_check_order (strBytes "xyz") (strBytes "+") (by decide)

/-- C8 counterexample: the 1-byte buffer `x` matches no prefix, yet the
check signals NotComplete — not InvalidFrameType "independent of how many
bytes the buffer holds" as the claim states. -/
theorem claim8_short_buffer_cex :
    extract_simple_frame_data (strBytes "x") (strBytes "+") = .error .notComplete
      ∧ RespErr.notComplete ≠ RespErr.invalidFrameType :=
  ⟨rfl, by decide⟩

/-- C9: the f64 encoder is total — every value, non-finite ones included,
yields a `,<payload>\r\n` frame.  NaN fails both threshold comparisons, so
it takes the fixed-point branch and encodes as `,+NaN\r\n`; the infinities
take the scientific branch, encoding as `,+inf\r\n` and `,-inf\r\n`; and
round-trip equality cannot hold for NaN since `NaN == NaN` is false. -/
theorem claim9_nonfinite_encode :
    encodeF64 .nan = strBytes ",+NaN\r\n"
      ∧ (f64Gt (f64Abs .nan) oneE8 || f64Lt (f64Abs .nan) oneEm8) = false
      ∧ encodeF64 .inf = strBytes ",+inf\r\n"
      ∧ (f64Gt (f64Abs .inf) oneE8 || f64Lt (f64Abs .inf) oneEm8) = true
      ∧ encodeF64 .neginf = strBytes ",-inf\r\n"
      ∧ f64Eq .nan .nan = false
      ∧ (∀ d : F64, encodeF64 d = 44 :: f64Payload d ++ [13, 10]) :=
  ⟨rfl, by decide, rfl, by decide, rfl, rfl, fun d => rfl⟩

/-- C10: the CRLF search is safe and the empty buffer unreachable: an index
`find_crlf` returns always has `j + 1 < buf.length` with bytes CR, LF at
`j`, `j + 1` (the loop only reads in bounds), and `extract_simple_frame_data`
returns NotComplete outright for every buffer shorter than 3 bytes, so
`find_crlf` is never reached with a buffer that could underflow `len - 1`. -/
theorem claim10_find_crlf_safe :
    (∀ (buf : List Nat) (nth j : Nat), find_crlf buf nth = some j →
        j + 1 < buf.length ∧ buf.getD j 0 = 13 ∧ buf.getD (j + 1) 0 = 10)
      ∧ (∀ (buf pfx : List Nat), buf.length < 3 →
          extract_simple_frame_data buf pfx = .error .notComplete) :=
  ⟨fun _ _ _ h => find_crlf_sound h,
   fun buf pfx h => by unfold extract_simple_frame_data; rw [if_pos h]⟩

end SimpleRedis
